import Mathlib

/-!
Shallow embedding of the 5143-Scheduler simulation engine.

The embedding follows the A02 sources:
* `src/A02/pkg/process.py` — the `Process` class (bursts, burst cursor,
  timing accumulators, `current_burst`, `advance_burst`, `is_complete`);
* `src/A02/schedulers/fcfs.py` — `FCFSScheduler` (queues, `add_process`,
  `_check_arrivals`, `_process_cpus`, `_process_io_devices`,
  `_dispatch_to_cpus`, `_dispatch_to_io_devices`, `step`);
* `src/A02/schedulers/srtf.py` — `SRTFScheduler` (`_get_remaining_burst_time`,
  `_sort_ready_queue`, `_check_preemption`, `step`);
* `src/A02/schedulers/round_robin.py` — `RRScheduler` (per-slot quantum
  counters, quantum expiry preemption);
* `src/A02/schedulers/adaptive.py` — `AdaptiveScheduler._adapt_quantum`;
* `src/A02/pkg/scheduler.py` — the base `Scheduler.add_process`;
* `src/part01 /schedulers/srtf.py` — the part01 `SRTFScheduler`
  (`add_process`, `_get_shortest_remaining_process`, `_preemption_check`).

Python `list.sort(key=...)` is a stable sort by a total preorder on keys;
it is embedded as `List.insertionSort`, which is stable, so the two agree
extensionally.  Machine-level detail that the claims do not touch (string
process ids, the verbose logging, file export) is dropped; process states,
which the source stores as strings, are an inductive type with one
constructor per string constant actually used.
-/

/-- A burst, `{"cpu": d}` or `{"io": {"type": t, "duration": d}}` in the
source (`src/A02/pkg/process.py` docstring); the io device-class string is
never consulted by the engine and is omitted. -/
inductive Burst where
  | cpu (duration : Nat)
  | ioB (duration : Nat)
deriving DecidableEq, Repr

/-- Process state strings used by the source: `"new"`, `"ready"`,
`"running"`, `"waiting"`, `"io_waiting"` (A02) / `"io"` (part01),
`"finished"`. -/
inductive PState where
  | new
  | ready
  | running
  | waiting
  | ioWaiting
  | ioSt
  | finished
deriving DecidableEq, Repr

/-- The `Process` class of `src/A02/pkg/process.py`.  The dynamically added
attributes `first_run_time` (FCFS/SRTF/RR `_dispatch_to_cpus`),
`first_dispatch_time` (adaptive dispatch and base scheduler),
`first_ready_time` (base scheduler `add_process`) and `burst_history`
(a list of `(time, kind)` pairs that `AdaptiveScheduler._process_cpus`
attaches, created empty and never appended to; kind embedded as
`Bool`, `true` for cpu) are embedded as `Option` fields that start out
`none`, matching the `hasattr` guards.  The derived statistics fields
`init_cpu_bursts`, `init_io_bursts`, `TotalBursts` are set once in
`__init__`, never read by the engine, and omitted. -/
structure Process where
  pid : Nat
  bursts : List Burst
  priority : Int := 0
  arrival_time : Nat := 0
  quantum : Nat := 4
  state : PState := PState.new
  current_burst_index : Nat := 0
  time_in_burst : Nat := 0
  wait_time : Nat := 0
  turnaround_time : Int := 0
  runtime : Nat := 0
  io_time : Nat := 0
  start_time : Nat := 0
  end_time : Nat := 0
  first_run_time : Option Nat := none
  first_dispatch_time : Option Nat := none
  first_ready_time : Option Nat := none
  burst_history : Option (List (Nat × Bool)) := none
deriving DecidableEq, Repr

/-- `Process.current_burst`: the burst at the cursor, `None` when the
cursor has run past the end (`src/A02/pkg/process.py` lines 46-50). -/
def Process.current_burst (p : Process) : Option Burst :=
  p.bursts[p.current_burst_index]?

/-- `Process.is_complete` (`src/A02/pkg/process.py` lines 82-84). -/
def Process.is_complete (p : Process) : Bool :=
  p.bursts.length ≤ p.current_burst_index

/-- `Process.advance_burst` (`src/A02/pkg/process.py` lines 52-80).
The source's guard `current_burst_index >= len(bursts): return False` is
the `none` branch of the indexing, since `p.bursts[i]? = none` exactly when
`i ≥ p.bursts.length`.  Returns the Python return value paired with the
mutated process. -/
def Process.advance_burst (p : Process) : Bool × Process :=
  match p.bursts[p.current_burst_index]? with
  | none => (false, p)
  | some b =>
    let p1 : Process := { p with time_in_burst := p.time_in_burst + 1 }
    match b with
    | Burst.cpu d =>
      if d ≤ p1.time_in_burst then
        (true, { p1 with runtime := p1.runtime + d,
                         current_burst_index := p1.current_burst_index + 1,
                         time_in_burst := 0 })
      else
        (false, p1)
    | Burst.ioB d =>
      if d ≤ p1.time_in_burst then
        (true, { p1 with io_time := p1.io_time + d,
                         current_burst_index := p1.current_burst_index + 1,
                         time_in_burst := 0 })
      else
        (false, p1)

/-- State shared by `FCFSScheduler` and the A02 `SRTFScheduler`: both have
fields `not_arrived`, `ready_queue`, `wait_queue`, `cpu_queue`, `io_queue`,
`finished`, `clock` (`src/A02/schedulers/fcfs.py` lines 16-30,
`src/A02/schedulers/srtf.py` lines 17-30).  `num_cpus`/`num_ios` are the
lengths of the slot lists, which the source never resizes. -/
structure SchedState where
  not_arrived : List Process := []
  ready_queue : List Process := []
  wait_queue : List Process := []
  cpu_queue : List (Option Process) := [none]
  io_queue : List (Option Process) := [none]
  finished : List Process := []
  clock : Nat := 0
deriving DecidableEq, Repr

/-- `add_process` of FCFS/SRTF/RR/Adaptive (`src/A02/schedulers/fcfs.py`
lines 32-37): append to `not_arrived`, then stable-sort by arrival time. -/
def addProcess (s : SchedState) (p : Process) : SchedState :=
  { s with not_arrived :=
      (s.not_arrived ++ [p]).insertionSort (fun a b => a.arrival_time ≤ b.arrival_time) }

/-- The `while` loop of `_check_arrivals` (`src/A02/schedulers/fcfs.py`
lines 39-47): pop arrived processes off the front of `not_arrived`, tag
them `"ready"`, and hand them over in admission order.  Returns the
remaining `not_arrived` list and the admitted processes. -/
def admitLoop (clock : Nat) : List Process → List Process × List Process
  | [] => ([], [])
  | p :: rest =>
    if p.arrival_time ≤ clock then
      let r := admitLoop clock rest
      (r.1, { p with state := PState.ready } :: r.2)
    else
      (p :: rest, [])

/-- `_check_arrivals`: admitted processes are appended to the ready queue
in order. -/
def checkArrivals (s : SchedState) : SchedState :=
  let r := admitLoop s.clock s.not_arrived
  { s with not_arrived := r.1, ready_queue := s.ready_queue ++ r.2 }

/-- The slot loop of `_process_cpus` (`src/A02/schedulers/fcfs.py` lines
71-96): advance each occupant; on burst completion free the slot and route
the process to `finished` (recording `end_time` and `turnaround_time`) or,
tagged `"waiting"`, to the back of the wait queue.  Returns the slots, the
wait queue and the finished list. -/
def processCpusLoop (clock : Nat) :
    List (Option Process) → List Process → List Process →
    List (Option Process) × List Process × List Process
  | [], wq, fin => ([], wq, fin)
  | none :: rest, wq, fin =>
    let r := processCpusLoop clock rest wq fin
    (none :: r.1, r.2)
  | some p :: rest, wq, fin =>
    let a := p.advance_burst
    if a.1 then
      if a.2.is_complete then
        let p2 : Process := { a.2 with
          state := PState.finished
          end_time := clock
          turnaround_time := (clock : Int) - (a.2.arrival_time : Int) }
        let r := processCpusLoop clock rest wq (fin ++ [p2])
        (none :: r.1, r.2)
      else
        let p2 : Process := { a.2 with state := PState.waiting }
        let r := processCpusLoop clock rest (wq ++ [p2]) fin
        (none :: r.1, r.2)
    else
      let r := processCpusLoop clock rest wq fin
      (some a.2 :: r.1, r.2)

/-- The slot loop of `_process_io_devices` (`src/A02/schedulers/fcfs.py`
lines 98-124): like the CPU loop, but a completed process whose bursts are
not exhausted goes, tagged `"ready"`, to the back of the ready queue.
Returns the slots, the ready queue and the finished list. -/
def processIosLoop (clock : Nat) :
    List (Option Process) → List Process → List Process →
    List (Option Process) × List Process × List Process
  | [], rq, fin => ([], rq, fin)
  | none :: rest, rq, fin =>
    let r := processIosLoop clock rest rq fin
    (none :: r.1, r.2)
  | some p :: rest, rq, fin =>
    let a := p.advance_burst
    if a.1 then
      if a.2.is_complete then
        let p2 : Process := { a.2 with
          state := PState.finished
          end_time := clock
          turnaround_time := (clock : Int) - (a.2.arrival_time : Int) }
        let r := processIosLoop clock rest rq (fin ++ [p2])
        (none :: r.1, r.2)
      else
        let p2 : Process := { a.2 with state := PState.ready }
        let r := processIosLoop clock rest (rq ++ [p2]) fin
        (none :: r.1, r.2)
    else
      let r := processIosLoop clock rest rq fin
      (some a.2 :: r.1, r.2)

/-- The inner `for` of `_dispatch_to_cpus`: put the process into the first
free slot. -/
def assignFree (p : Process) : List (Option Process) → List (Option Process)
  | [] => []
  | none :: rest => some p :: rest
  | some q :: rest => some q :: assignFree p rest

/-- The `while` loop of `_dispatch_to_cpus` (`src/A02/schedulers/fcfs.py`
lines 126-145): while some slot is free and the ready queue is non-empty,
pop the front process; if its state is `"ready"`, mark it `"running"`,
record `first_run_time` on first dispatch, and place it in the first free
slot (a popped process in any other state is dropped, as in the source). -/
def dispatchCpusLoop (clock : Nat) :
    List (Option Process) → List Process → List (Option Process) × List Process
  | cpus, [] => (cpus, [])
  | cpus, p :: rest =>
    if cpus.any (fun o => o.isNone) then
      if p.state = PState.ready then
        let p' : Process := { p with
          state := PState.running
          first_run_time := if p.first_run_time = none then some clock else p.first_run_time }
        dispatchCpusLoop clock (assignFree p' cpus) rest
      else
        dispatchCpusLoop clock cpus rest
    else
      (cpus, p :: rest)

/-- The `while` loop of `_dispatch_to_io_devices` (`src/A02/schedulers/fcfs.py`
lines 147-159): same shape over the wait queue, states `"waiting"` →
`"io_waiting"`. -/
def dispatchIosLoop :
    List (Option Process) → List Process → List (Option Process) × List Process
  | devs, [] => (devs, [])
  | devs, p :: rest =>
    if devs.any (fun o => o.isNone) then
      if p.state = PState.waiting then
        let p' : Process := { p with state := PState.ioWaiting }
        dispatchIosLoop (assignFree p' devs) rest
      else
        dispatchIosLoop devs rest
    else
      (devs, p :: rest)

/-- The tail of `step` shared by FCFS/SRTF/RR/Adaptive: `clock += 1`, then
`wait_time += 1` for every process currently in the ready queue
(`src/A02/schedulers/fcfs.py` lines 66-69). -/
def clockAndAge (s : SchedState) : SchedState :=
  { s with
    clock := s.clock + 1
    ready_queue := s.ready_queue.map (fun p => { p with wait_time := p.wait_time + 1 }) }

/-- `_process_cpus` as a state transformer. -/
def phaseCpus (s : SchedState) : SchedState :=
  let c := processCpusLoop s.clock s.cpu_queue s.wait_queue s.finished
  { s with cpu_queue := c.1, wait_queue := c.2.1, finished := c.2.2 }

/-- `_process_io_devices` as a state transformer. -/
def phaseIos (s : SchedState) : SchedState :=
  let d := processIosLoop s.clock s.io_queue s.ready_queue s.finished
  { s with io_queue := d.1, ready_queue := d.2.1, finished := d.2.2 }

/-- `_dispatch_to_cpus` (FCFS order) as a state transformer. -/
def phaseDispatchCpus (s : SchedState) : SchedState :=
  let e := dispatchCpusLoop s.clock s.cpu_queue s.ready_queue
  { s with cpu_queue := e.1, ready_queue := e.2 }

/-- `_dispatch_to_io_devices` as a state transformer. -/
def phaseDispatchIos (s : SchedState) : SchedState :=
  let f := dispatchIosLoop s.io_queue s.wait_queue
  { s with io_queue := f.1, wait_queue := f.2 }

/-- `FCFSScheduler.step` (`src/A02/schedulers/fcfs.py` lines 49-69):
arrivals, CPU advance, io advance, CPU dispatch, io dispatch, clock
increment, ready-queue aging. -/
def fcfsStep (s : SchedState) : SchedState :=
  clockAndAge (phaseDispatchIos (phaseDispatchCpus (phaseIos (phaseCpus (checkArrivals s)))))

/-- `n`-fold iteration of a step function. -/
def iterN (f : α → α) : Nat → α → α
  | 0, s => s
  | n + 1, s => iterN f n (f s)

/-- `SRTFScheduler._get_remaining_burst_time` (`src/A02/schedulers/srtf.py`
lines 46-60): remaining time of the current burst when it is a CPU burst,
`float('inf')` — here `⊤` — otherwise. -/
def remTime (p : Process) : WithTop Int :=
  match p.current_burst with
  | some (Burst.cpu d) => ((d - p.time_in_burst : Int) : WithTop Int)
  | _ => ⊤

/-- The SRTF ready-queue order: smaller remaining time first (the sort key
of `_sort_ready_queue`). -/
def remLE (a b : Process) : Prop :=
  remTime a ≤ remTime b

instance : DecidableRel remLE :=
  fun a b => inferInstanceAs (Decidable (remTime a ≤ remTime b))

instance : IsTotal Process remLE :=
  ⟨fun a b => le_total (remTime a) (remTime b)⟩

instance : IsTrans Process remLE :=
  ⟨fun _ _ _ hab hbc => le_trans hab hbc⟩

/-- `SRTFScheduler._sort_ready_queue` (`src/A02/schedulers/srtf.py` lines
62-64): Python's stable sort by the remaining-time key. -/
def sortReady (l : List Process) : List Process :=
  l.insertionSort remLE

/-- The slot loop of `SRTFScheduler._check_preemption`
(`src/A02/schedulers/srtf.py` lines 73-86): for each occupied slot, if the
ready queue is non-empty and its head has strictly smaller remaining time
than the occupant, tag the occupant `"ready"`, append it to the ready
queue, and free the slot. -/
def preemptLoop :
    List (Option Process) → List Process → List (Option Process) × List Process
  | [], rq => ([], rq)
  | none :: rest, rq =>
    let r := preemptLoop rest rq
    (none :: r.1, r.2)
  | some cur :: rest, [] =>
    let r := preemptLoop rest []
    (some cur :: r.1, r.2)
  | some cur :: rest, q0 :: qs =>
    if remTime q0 < remTime cur then
      let r := preemptLoop rest ((q0 :: qs) ++ [{ cur with state := PState.ready }])
      (none :: r.1, r.2)
    else
      let r := preemptLoop rest (q0 :: qs)
      (some cur :: r.1, r.2)

/-- `SRTFScheduler._check_preemption` (`src/A02/schedulers/srtf.py` lines
66-86): return unchanged when the ready queue is empty, otherwise sort the
ready queue by remaining time and run the slot loop. -/
def checkPreemption (s : SchedState) : SchedState :=
  if s.ready_queue = [] then s
  else
    let r := preemptLoop s.cpu_queue (sortReady s.ready_queue)
    { s with cpu_queue := r.1, ready_queue := r.2 }

/-- The sorting that `SRTFScheduler._dispatch_to_cpus` performs before its
dispatch loop (`src/A02/schedulers/srtf.py` line 144). -/
def srtfSortPhase (s : SchedState) : SchedState :=
  { s with ready_queue := sortReady s.ready_queue }

/-- `SRTFScheduler.step` (`src/A02/schedulers/srtf.py` lines 88-98):
arrivals, preemption check, CPU advance, io advance, CPU dispatch (the
source sorts the ready queue at the top of `_dispatch_to_cpus` and then
pops from the front), io dispatch, clock increment, ready-queue aging. -/
def srtfStep (s : SchedState) : SchedState :=
  clockAndAge (phaseDispatchIos (phaseDispatchCpus (srtfSortPhase
    (phaseIos (phaseCpus (checkPreemption (checkArrivals s)))))))

/-- State of `RRScheduler` (`src/A02/schedulers/round_robin.py` lines
16-33).  The source keeps a dict `quantum_remaining` keyed by CPU index
whose keys are, by construction, exactly the occupied slots (the counter is
installed on every dispatch and deleted on burst completion and on
preemption); slot and counter are embedded jointly as
`Option (Process × Int)`. -/
structure RRState where
  quantum : Int := 4
  not_arrived : List Process := []
  ready_queue : List Process := []
  wait_queue : List Process := []
  cpu_queue : List (Option (Process × Int)) := [none]
  io_queue : List (Option Process) := [none]
  finished : List Process := []
  clock : Nat := 0
deriving DecidableEq, Repr

/-- `RRScheduler._check_arrivals` — identical to the FCFS one. -/
def rrCheckArrivals (s : RRState) : RRState :=
  let r := admitLoop s.clock s.not_arrived
  { s with not_arrived := r.1, ready_queue := s.ready_queue ++ r.2 }

/-- The slot loop of `RRScheduler._process_cpus`
(`src/A02/schedulers/round_robin.py` lines 60-98): decrement the quantum
counter, advance the burst; on burst completion free the slot and route to
`finished` or the wait queue; otherwise, if the counter dropped to `<= 0`,
preempt — free the slot and append the process, tagged `"ready"`, to the
ready queue.  Returns (slots, ready queue, wait queue, finished list). -/
def rrProcessCpusLoop (clock : Nat) :
    List (Option (Process × Int)) → List Process → List Process → List Process →
    List (Option (Process × Int)) × List Process × List Process × List Process
  | [], rq, wq, fin => ([], rq, wq, fin)
  | none :: rest, rq, wq, fin =>
    let r := rrProcessCpusLoop clock rest rq wq fin
    (none :: r.1, r.2)
  | some pq :: rest, rq, wq, fin =>
    let q1 := pq.2 - 1
    let a := pq.1.advance_burst
    if a.1 then
      if a.2.is_complete then
        let p2 : Process := { a.2 with
          state := PState.finished
          end_time := clock
          turnaround_time := (clock : Int) - (a.2.arrival_time : Int) }
        let r := rrProcessCpusLoop clock rest rq wq (fin ++ [p2])
        (none :: r.1, r.2)
      else
        let p2 : Process := { a.2 with state := PState.waiting }
        let r := rrProcessCpusLoop clock rest rq (wq ++ [p2]) fin
        (none :: r.1, r.2)
    else if q1 ≤ 0 then
      let p2 : Process := { a.2 with state := PState.ready }
      let r := rrProcessCpusLoop clock rest (rq ++ [p2]) wq fin
      (none :: r.1, r.2)
    else
      let r := rrProcessCpusLoop clock rest rq wq fin
      (some (a.2, q1) :: r.1, r.2)

/-- First free slot assignment for the RR slot list. -/
def rrAssignFree (pq : Process × Int) :
    List (Option (Process × Int)) → List (Option (Process × Int))
  | [] => []
  | none :: rest => some pq :: rest
  | some x :: rest => some x :: rrAssignFree pq rest

/-- The `while` loop of `RRScheduler._dispatch_to_cpus`
(`src/A02/schedulers/round_robin.py` lines 122-136): as in FCFS, but every
dispatch installs a fresh quantum counter `self.quantum` for the slot. -/
def rrDispatchCpusLoop (clock : Nat) (quantum : Int) :
    List (Option (Process × Int)) → List Process →
    List (Option (Process × Int)) × List Process
  | cpus, [] => (cpus, [])
  | cpus, p :: rest =>
    if cpus.any (fun o => o.isNone) then
      if p.state = PState.ready then
        let p' : Process := { p with
          state := PState.running
          first_run_time := if p.first_run_time = none then some clock else p.first_run_time }
        rrDispatchCpusLoop clock quantum (rrAssignFree (p', quantum) cpus) rest
      else
        rrDispatchCpusLoop clock quantum cpus rest
    else
      (cpus, p :: rest)

/-- `RRScheduler.step` (`src/A02/schedulers/round_robin.py` lines 49-58):
arrivals, CPU advance (with quantum expiry preemption), io advance, CPU
dispatch, io dispatch, clock increment, ready-queue aging. -/
def rrStep (s : RRState) : RRState :=
  let s1 := rrCheckArrivals s
  let c := rrProcessCpusLoop s1.clock s1.cpu_queue s1.ready_queue s1.wait_queue s1.finished
  let s2 : RRState := { s1 with
    cpu_queue := c.1
    ready_queue := c.2.1
    wait_queue := c.2.2.1
    finished := c.2.2.2 }
  let d := processIosLoop s2.clock s2.io_queue s2.ready_queue s2.finished
  let s3 : RRState := { s2 with io_queue := d.1, ready_queue := d.2.1, finished := d.2.2 }
  let e := rrDispatchCpusLoop s3.clock s3.quantum s3.cpu_queue s3.ready_queue
  let s4 : RRState := { s3 with cpu_queue := e.1, ready_queue := e.2 }
  let f := dispatchIosLoop s4.io_queue s4.wait_queue
  let s5 : RRState := { s4 with io_queue := f.1, wait_queue := f.2 }
  { s5 with
    clock := s5.clock + 1
    ready_queue := s5.ready_queue.map (fun p => { p with wait_time := p.wait_time + 1 }) }

/-- `AdaptiveScheduler._adapt_quantum` (`src/A02/schedulers/adaptive.py`
lines 56-73): the load sample is `len(ready_queue)` plus the number of
occupied CPU slots; the sample is appended to `load_history`, which is
trimmed to its last 10 entries; the quantum is chosen from the average of
the stored samples.  Returns the new `current_quantum` and the new
`load_history`. -/
def adaptQuantum (base_quantum : Int) (ready_queue : List Process)
    (cpu_queue : List (Option Process)) (load_history : List Nat) :
    Int × List Nat :=
  let load := ready_queue.length + (cpu_queue.filter (fun o => o.isSome)).length
  let hist0 := load_history ++ [load]
  let hist := if 10 < hist0.length then hist0.tail else hist0
  let avg : ℚ := (hist.sum : ℚ) / (hist.length : ℚ)
  if 5 < avg then (max 2 (base_quantum - 2), hist)
  else if avg < 2 then (base_quantum + 2, hist)
  else (base_quantum, hist)

/-- Follows the words of claim C8 (and spec §4.3), for comparison with
`adaptQuantum`: the load sample is the Ready-queue length alone, the rest
of the recomputation is as claimed (trailing window of 10, average > 5 ⇒
`max(2, base-2)`, average < 2 ⇒ `base+2`, else `base`). -/
def claimAdaptQuantum (base_quantum : Int) (ready_queue : List Process)
    (load_history : List Nat) : Int × List Nat :=
  let load := ready_queue.length
  let hist0 := load_history ++ [load]
  let hist := if 10 < hist0.length then hist0.tail else hist0
  let avg : ℚ := (hist.sum : ℚ) / (hist.length : ℚ)
  if 5 < avg then (max 2 (base_quantum - 2), hist)
  else if avg < 2 then (base_quantum + 2, hist)
  else (base_quantum, hist)

/-- Integer reformulation of the adaptive quantum rule (division-free):
used to state the amended claim C8. -/
def adaptQuantumInt (base_quantum : Int) (ready_queue : List Process)
    (cpu_queue : List (Option Process)) (load_history : List Nat) : Int :=
  let load := ready_queue.length + (cpu_queue.filter (fun o => o.isSome)).length
  let hist0 := load_history ++ [load]
  let hist := if 10 < hist0.length then hist0.tail else hist0
  if 5 * hist.length < hist.sum then max 2 (base_quantum - 2)
  else if hist.sum < 2 * hist.length then base_quantum + 2
  else base_quantum

/-- The classification strings of `AdaptiveScheduler._classify_process`:
`'unknown'`, `'cpu_bound'`, `'io_bound'`, `'balanced'`. -/
inductive AClass where
  | unknown
  | cpuBound
  | ioBound
  | balanced
deriving DecidableEq, Repr

/-- `AdaptiveScheduler._classify_process` (`src/A02/schedulers/adaptive.py`
lines 75-87): `'unknown'` when the process has no `burst_history`
attribute; otherwise compare the summed cpu and io times of the history
(`cpu_time > io_time * 2` ⇒ cpu-bound, `io_time > cpu_time * 2` ⇒
io-bound, else balanced). -/
def classifyProcess (p : Process) : AClass :=
  match p.burst_history with
  | none => AClass.unknown
  | some h =>
    let cpu_time := ((h.filter (fun e => e.2)).map Prod.fst).sum
    let io_time := ((h.filter (fun e => !e.2)).map Prod.fst).sum
    if 2 * io_time < cpu_time then AClass.cpuBound
    else if 2 * cpu_time < io_time then AClass.ioBound
    else AClass.balanced

/-- The `priority_key` of `AdaptiveScheduler._sort_ready_queue`
(`src/A02/schedulers/adaptive.py` lines 89-104): tier 0 for io-bound, 1
for balanced, 2 otherwise (cpu-bound and unknown fall together), paired
with `burst_time` — which is always 0, since `Process` has no
`get_current_burst_time` method and the source falls back to 0. -/
def adaptKey (p : Process) : Nat × Nat :=
  match classifyProcess p with
  | AClass.ioBound => (0, 0)
  | AClass.balanced => (1, 0)
  | _ => (2, 0)

/-- Python tuple comparison on the sort keys: lexicographic. -/
def keyLE (a b : Nat × Nat) : Prop :=
  a.1 < b.1 ∨ (a.1 = b.1 ∧ a.2 ≤ b.2)

instance : DecidableRel keyLE :=
  fun a b => inferInstanceAs (Decidable (a.1 < b.1 ∨ (a.1 = b.1 ∧ a.2 ≤ b.2)))

/-- `AdaptiveScheduler._sort_ready_queue`: Python's stable sort by
`priority_key`. -/
def adaptSortReady (l : List Process) : List Process :=
  l.insertionSort (fun a b => keyLE (adaptKey a) (adaptKey b))

/-- State of `AdaptiveScheduler` (`src/A02/schedulers/adaptive.py` lines
19-40).  As for RR, the `quantum_remaining` dict keyed by CPU index has,
by construction, exactly the occupied slots as keys (installed on every
dispatch, deleted on burst completion and on preemption), so slot and
counter are embedded jointly; the source's `if cpu_index in
self.quantum_remaining` guards are therefore always taken for occupied
slots. -/
structure AdaptiveState where
  base_quantum : Int := 4
  current_quantum : Int := 4
  load_history : List Nat := []
  not_arrived : List Process := []
  ready_queue : List Process := []
  wait_queue : List Process := []
  cpu_queue : List (Option (Process × Int)) := [none]
  io_queue : List (Option Process) := [none]
  finished : List Process := []
  clock : Nat := 0
deriving DecidableEq, Repr

/-- `AdaptiveScheduler._check_arrivals` — identical to the FCFS one. -/
def adaptArrivals (s : AdaptiveState) : AdaptiveState :=
  let r := admitLoop s.clock s.not_arrived
  { s with not_arrived := r.1, ready_queue := s.ready_queue ++ r.2 }

/-- The `_adapt_quantum` call inside `AdaptiveScheduler.step`: update
`current_quantum` and `load_history` from the current ready queue and
CPU occupancy (the occupied-slot count ignores the counters). -/
def adaptPhaseQuantum (s : AdaptiveState) : AdaptiveState :=
  let r := adaptQuantum s.base_quantum s.ready_queue
    (s.cpu_queue.map (Option.map Prod.fst)) s.load_history
  { s with current_quantum := r.1, load_history := r.2 }

/-- The slot loop of `AdaptiveScheduler._process_cpus`
(`src/A02/schedulers/adaptive.py` lines 118-157): decrement the counter
(guard always taken, see `AdaptiveState`), attach an empty
`burst_history` on first contact, advance the burst; on completion free
the slot and route to `finished` or the wait queue; otherwise preempt on
`counter <= 0`, appending the process, tagged ready, to the ready queue.
Returns (slots, ready queue, wait queue, finished list). -/
def adaptProcessCpusLoop (clock : Nat) :
    List (Option (Process × Int)) → List Process → List Process → List Process →
    List (Option (Process × Int)) × List Process × List Process × List Process
  | [], rq, wq, fin => ([], rq, wq, fin)
  | none :: rest, rq, wq, fin =>
    let r := adaptProcessCpusLoop clock rest rq wq fin
    (none :: r.1, r.2)
  | some pq :: rest, rq, wq, fin =>
    let q1 := pq.2 - 1
    let ph : Process :=
      if pq.1.burst_history = none then { pq.1 with burst_history := some [] } else pq.1
    let a := ph.advance_burst
    if a.1 then
      if a.2.is_complete then
        let p2 : Process := { a.2 with
          state := PState.finished
          end_time := clock
          turnaround_time := (clock : Int) - (a.2.arrival_time : Int) }
        let r := adaptProcessCpusLoop clock rest rq wq (fin ++ [p2])
        (none :: r.1, r.2)
      else
        let p2 : Process := { a.2 with state := PState.waiting }
        let r := adaptProcessCpusLoop clock rest rq (wq ++ [p2]) fin
        (none :: r.1, r.2)
    else if q1 ≤ 0 then
      let p2 : Process := { a.2 with state := PState.ready }
      let r := adaptProcessCpusLoop clock rest (rq ++ [p2]) wq fin
      (none :: r.1, r.2)
    else
      let r := adaptProcessCpusLoop clock rest rq wq fin
      (some (a.2, q1) :: r.1, r.2)

/-- `AdaptiveScheduler._process_cpus` as a state transformer. -/
def adaptPhaseCpus (s : AdaptiveState) : AdaptiveState :=
  let c := adaptProcessCpusLoop s.clock s.cpu_queue s.ready_queue s.wait_queue s.finished
  { s with
    cpu_queue := c.1
    ready_queue := c.2.1
    wait_queue := c.2.2.1
    finished := c.2.2.2 }

/-- `AdaptiveScheduler._process_io_devices` — identical to the FCFS one. -/
def adaptPhaseIos (s : AdaptiveState) : AdaptiveState :=
  let d := processIosLoop s.clock s.io_queue s.ready_queue s.finished
  { s with io_queue := d.1, ready_queue := d.2.1, finished := d.2.2 }

/-- The `while` loop of `AdaptiveScheduler._dispatch_to_cpus`
(`src/A02/schedulers/adaptive.py` lines 180-198): as in RR, but recording
`first_dispatch_time` instead of `first_run_time`, and installing
`self.current_quantum` — the quantum recomputed this tick — as the fresh
slot counter on every dispatch. -/
def adaptDispatchCpusLoop (clock : Nat) (q : Int) :
    List (Option (Process × Int)) → List Process →
    List (Option (Process × Int)) × List Process
  | cpus, [] => (cpus, [])
  | cpus, p :: rest =>
    if cpus.any (fun o => o.isNone) then
      if p.state = PState.ready then
        let p' : Process := { p with
          state := PState.running
          first_dispatch_time :=
            if p.first_dispatch_time = none then some clock else p.first_dispatch_time }
        adaptDispatchCpusLoop clock q (rrAssignFree (p', q) cpus) rest
      else
        adaptDispatchCpusLoop clock q cpus rest
    else
      (cpus, p :: rest)

/-- `AdaptiveScheduler._dispatch_to_cpus` as a state transformer: sort the
ready queue by `priority_key`, then dispatch, installing
`current_quantum` per slot. -/
def adaptPhaseDispatchCpus (s : AdaptiveState) : AdaptiveState :=
  let e := adaptDispatchCpusLoop s.clock s.current_quantum s.cpu_queue
    (adaptSortReady s.ready_queue)
  { s with cpu_queue := e.1, ready_queue := e.2 }

/-- `AdaptiveScheduler._dispatch_to_io_devices` — identical to the FCFS
one. -/
def adaptPhaseDispatchIos (s : AdaptiveState) : AdaptiveState :=
  let f := dispatchIosLoop s.io_queue s.wait_queue
  { s with io_queue := f.1, wait_queue := f.2 }

/-- `AdaptiveScheduler.step` (`src/A02/schedulers/adaptive.py` lines
106-116): arrivals, quantum recomputation (`_adapt_quantum` runs on EVERY
tick), CPU advance with quantum expiry, io advance, CPU dispatch
(installing the recomputed quantum), io dispatch, clock increment,
ready-queue aging. -/
def adaptStep (s : AdaptiveState) : AdaptiveState :=
  let s5 := adaptPhaseDispatchIos (adaptPhaseDispatchCpus (adaptPhaseIos
    (adaptPhaseCpus (adaptPhaseQuantum (adaptArrivals s)))))
  { s5 with
    clock := s5.clock + 1
    ready_queue := s5.ready_queue.map (fun p => { p with wait_time := p.wait_time + 1 }) }

/-- State of the base `Scheduler` of `src/A02/pkg/scheduler.py` (the parts
the claims touch).  Its `Clock` class is not under `src/`; per spec §9 the
shared clock is an integer counter read through `now()`, embedded as a
`Nat` field. -/
structure BaseState where
  ready_queue : List Process := []
  wait_queue : List Process := []
  cpus : List (Option Process) := [none]
  io_devs : List (Option Process) := [none]
  finished : List Process := []
  clock : Nat := 0
deriving DecidableEq, Repr

/-- `Scheduler.add_process` of the base scheduler (`src/A02/pkg/scheduler.py`
lines 57-83): set the state to `"ready"`, default `start_time` to the
arrival time, record `first_ready_time` on first entry, and append the
process directly to the ready queue — there is no arrival gating and no
validation. -/
def pkgAddProcess (s : BaseState) (p : Process) : BaseState :=
  let p1 : Process := { p with state := PState.ready }
  let p2 : Process := if p1.start_time = 0 then { p1 with start_time := p1.arrival_time } else p1
  let p3 : Process := if p2.first_ready_time = none then { p2 with first_ready_time := some s.clock } else p2
  { s with ready_queue := s.ready_queue ++ [p3] }

/-- `SRTFScheduler.add_process` of part01 (`src/part01 /schedulers/srtf.py`
lines 35-40): set the state to `"ready"` and append directly to the ready
queue, ignoring `arrival_time`. -/
def part01AddProcess (ready_queue : List Process) (p : Process) : List Process :=
  ready_queue ++ [{ p with state := PState.ready }]

/-- `SRTFScheduler._get_shortest_remaining_process` of part01
(`src/part01 /schedulers/srtf.py` lines 59-80): scan the ready queue,
keeping the first process with a current CPU burst of strictly smallest
`burst["cpu"]` — the initial burst duration, not the remaining time. -/
def part01ShortestLoop : List Process → Option Process → WithTop Int → Option Process
  | [], best, _ => best
  | p :: rest, best, bestRem =>
    match p.current_burst with
    | some (Burst.cpu d) =>
      if ((d : Int) : WithTop Int) < bestRem then
        part01ShortestLoop rest (some p) ((d : Int) : WithTop Int)
      else
        part01ShortestLoop rest best bestRem
    | _ => part01ShortestLoop rest best bestRem

/-- Entry point of the part01 shortest-ready scan (starts from `None` and
`float('inf')`). -/
def part01Shortest (rq : List Process) : Option Process :=
  part01ShortestLoop rq none ⊤

/-- `SRTFScheduler._preemption_check` of part01 (`src/part01 /schedulers/
srtf.py` lines 82-116), for one CPU slot: if the slot is occupied, the scan
finds a ready process, and both current bursts are CPU bursts, preempt when
the ready process's `current_burst()["cpu"]` is strictly smaller than the
occupant's `current_burst()["cpu"]` — initial durations on both sides.  On
preemption the occupant is appended (tagged `"ready"`) to the ready queue,
the chosen process is removed from it (`list.remove`, first occurrence) and
installed as `"running"`.  Returns the new slot and ready queue. -/
def part01PreemptionCheck (cur : Option Process) (rq : List Process) :
    Option Process × List Process :=
  match cur with
  | none => (none, rq)
  | some c =>
    match part01Shortest rq with
    | none => (some c, rq)
    | some sh =>
      match c.current_burst, sh.current_burst with
      | some (Burst.cpu d), some (Burst.cpu ds) =>
        if ds < d then
          let rq1 := (rq ++ [{ c with state := PState.ready }]).erase sh
          (some { sh with state := PState.running }, rq1)
        else
          (some c, rq)
      | _, _ => (some c, rq)

/-- Follows the words of claim C1 (and spec §4.2), for comparison with
`fcfsStep`: (1) admission, (2) aging — `wait_time` for Ready and `io_time`
for Waiting, (3) resource advance of CPU and io slots, (4) preemption
(FCFS: never), (5) dispatch to CPUs from Ready and to io slots from
Waiting, then the clock increment. -/
def claimOrderStep (s : SchedState) : SchedState :=
  let s1 := checkArrivals s
  let s2 : SchedState := { s1 with
    ready_queue := s1.ready_queue.map (fun p => { p with wait_time := p.wait_time + 1 })
    wait_queue := s1.wait_queue.map (fun p => { p with io_time := p.io_time + 1 }) }
  let c := processCpusLoop s2.clock s2.cpu_queue s2.wait_queue s2.finished
  let s3 : SchedState := { s2 with cpu_queue := c.1, wait_queue := c.2.1, finished := c.2.2 }
  let d := processIosLoop s3.clock s3.io_queue s3.ready_queue s3.finished
  let s4 : SchedState := { s3 with io_queue := d.1, ready_queue := d.2.1, finished := d.2.2 }
  let e := dispatchCpusLoop s4.clock s4.cpu_queue s4.ready_queue
  let s5 : SchedState := { s4 with cpu_queue := e.1, ready_queue := e.2 }
  let f := dispatchIosLoop s5.io_queue s5.wait_queue
  let s6 : SchedState := { s5 with io_queue := f.1, wait_queue := f.2 }
  { s6 with clock := s6.clock + 1 }

/-- The smallest remaining time among a list of processes (the claim C3
notion "the ready process with the smallest remaining time"). -/
def minRem (l : List Process) : WithTop Int :=
  (l.map remTime).foldr min ⊤

/-- `RRScheduler.add_process` (`src/A02/schedulers/round_robin.py` lines
35-38) — same code as the FCFS one. -/
def rrAddProcess (s : RRState) (p : Process) : RRState :=
  { s with not_arrived :=
      (s.not_arrived ++ [p]).insertionSort (fun a b => a.arrival_time ≤ b.arrival_time) }

/-- Processes occupying a slot list. -/
def onSlots (l : List (Option Process)) : List Process :=
  l.filterMap (fun o => o)

/-- The arrival-gating invariant of claim C2: every process in the ready
queue, the wait queue, a CPU slot or an io slot has already arrived. -/
def arrivedInv (s : SchedState) : Prop :=
  (∀ p ∈ s.ready_queue, p.arrival_time ≤ s.clock) ∧
  (∀ p ∈ s.wait_queue, p.arrival_time ≤ s.clock) ∧
  (∀ p ∈ onSlots s.cpu_queue, p.arrival_time ≤ s.clock) ∧
  (∀ p ∈ onSlots s.io_queue, p.arrival_time ≤ s.clock)

/-- Multiset of process ids of a list of processes. -/
def pidsOf (l : List Process) : Multiset Nat :=
  (l.map Process.pid : List Nat)

/-- Every process id tracked by the scheduler, over all six collections,
with multiplicity. -/
def allPids (s : SchedState) : Multiset Nat :=
  pidsOf s.not_arrived + pidsOf s.ready_queue + pidsOf s.wait_queue +
    pidsOf (onSlots s.cpu_queue) + pidsOf (onSlots s.io_queue) + pidsOf s.finished

/-- The state-tag discipline the source maintains: ready-queue members are
tagged `"ready"` and wait-queue members `"waiting"` (every code path that
appends to these queues sets the tag first).  The dispatch loops drop a
popped process whose tag disagrees, so conservation holds on states
satisfying this. -/
def wfState (s : SchedState) : Prop :=
  (∀ p ∈ s.ready_queue, p.state = PState.ready) ∧
  (∀ p ∈ s.wait_queue, p.state = PState.waiting)

instance : LeftCommutative (min : WithTop Int → WithTop Int → WithTop Int) :=
  ⟨fun a b c => min_left_comm a b c⟩

/-- P1 of the SRTF scenario (claim C4): arrival 0, bursts `[CPU:8]`. -/
def srtfP1 : Process := { pid := 1, bursts := [Burst.cpu 8] }

/-- P2 of the SRTF scenario (claim C4): arrival 2, bursts `[CPU:3]`. -/
def srtfP2 : Process := { pid := 2, bursts := [Burst.cpu 3], arrival_time := 2 }

/-- Initial SRTF scenario state: one CPU, both processes added. -/
def srtfS0 : SchedState := addProcess (addProcess {} srtfP1) srtfP2

/-- P1 of the FCFS scenario (claim C5): arrival 0, bursts `[CPU:5]`. -/
def fcfsP1 : Process := { pid := 1, bursts := [Burst.cpu 5] }

/-- P2 of the FCFS scenario (claim C5): arrival 0, bursts `[CPU:3]`. -/
def fcfsP2 : Process := { pid := 2, bursts := [Burst.cpu 3] }

/-- Initial FCFS scenario state: one CPU, no io devices. -/
def fcfsS0 : SchedState := addProcess (addProcess { io_queue := [] } fcfsP1) fcfsP2

/-- P1 of the Round Robin scenario (claim C6): arrival 0, bursts `[CPU:5]`. -/
def rrP1 : Process := { pid := 1, bursts := [Burst.cpu 5] }

/-- Initial RR scenario state: one CPU, quantum 2. -/
def rrS0 : RRState := rrAddProcess { quantum := 2 } rrP1

/-- A process used as an inert placeholder in the adaptive-quantum
counterexample. -/
def dummyProc : Process := { pid := 0, bursts := [] }

/-- A process descriptor with an empty burst list (invalid input per claim
C7). -/
def emptyBurstProc : Process := { pid := 7, bursts := [] }

/-- A fresh FCFS scheduler state (defaults of `FCFSScheduler.__init__`). -/
def fcfsInit : SchedState := {}

/-- A process whose arrival time (5) is after the current clock (0). -/
def lateProc : Process := { pid := 3, bursts := [Burst.cpu 1], arrival_time := 5 }

/-- Running process of the part01 preemption counterexample: burst
`[CPU:5]`, 4 ticks already executed — true remaining time 1. -/
def runC3 : Process :=
  { pid := 1, bursts := [Burst.cpu 5], state := PState.running, time_in_burst := 4 }

/-- Ready process of the part01 preemption counterexample: burst `[CPU:4]`,
untouched — true remaining time 4. -/
def readyC3 : Process := { pid := 2, bursts := [Burst.cpu 4], state := PState.ready }

/-- Concrete state for the C1 phase-order counterexample: one ready
process, one free CPU, nothing else. -/
def c1State : SchedState :=
  { ready_queue := [{ pid := 1, bursts := [Burst.cpu 2], state := PState.ready }],
    io_queue := [] }

/-- Concrete state on which the C3 amended theorem is instantiated. -/
def c3WitState : SchedState :=
  { ready_queue := [readyC3], cpu_queue := [some runC3] }

/-- Concrete process for the C10 witness: all bursts complete. -/
def doneProc : Process := { pid := 4, bursts := [Burst.cpu 2], current_burst_index := 1 }

/-- Concrete well-formed state on which the C9 theorem is instantiated. -/
def c9WitState : SchedState :=
  { not_arrived := [lateProc]
    ready_queue := [{ pid := 2, bursts := [Burst.cpu 4], state := PState.ready }]
    wait_queue := [{ pid := 5, bursts := [Burst.ioB 2], state := PState.waiting }]
    cpu_queue := [some { pid := 1, bursts := [Burst.cpu 5], state := PState.running, time_in_burst := 4 }]
    io_queue := [none]
    finished := [] }

/-- Concrete state satisfying `arrivedInv` on which the C2 amended theorem
is instantiated. -/
def c2WitState : SchedState :=
  { not_arrived := [lateProc]
    ready_queue := [{ pid := 2, bursts := [Burst.cpu 4], state := PState.ready }]
    cpu_queue := [some { pid := 1, bursts := [Burst.cpu 5], state := PState.running }]
    io_queue := [none]
    clock := 3 }

/-- Concrete ready process on which the C1 amended theorem is
instantiated. -/
def c1WitProc : Process := { pid := 9, bursts := [Burst.cpu 3], state := PState.ready }

/-- Concrete state on which the C1 amended theorem is instantiated. -/
def c1WitState : SchedState := { ready_queue := [c1WitProc], io_queue := [] }

/-- Concrete ready process for the C8 amended witness. -/
def adaptWitProc : Process := { pid := 1, bursts := [Burst.cpu 3], state := PState.ready }

/-- Concrete adaptive state for the C8 amended witness: base quantum 4,
empty history, one ready process, one free CPU. -/
def adaptWitState : AdaptiveState :=
  { base_quantum := 4, current_quantum := 4, ready_queue := [adaptWitProc], io_queue := [] }

/-- The slot pair `adaptStep` produces on `adaptWitState`: the dispatched
process carrying the quantum recomputed that tick (average load 1 < 2, so
base 4 + 2 = 6). -/
def adaptWitSlot : Process × Int :=
  ({ adaptWitProc with state := PState.running, first_dispatch_time := some 0 }, 6)

/-- C10: a `Process` whose bursts are all complete
(`current_burst_index >= len(bursts)`) is left entirely unchanged by
`advance_burst`, which returns `False`: the guard at the top of the source
fires before any field is touched. -/
theorem c10_advance_frame (p : Process) (h : p.is_complete = true) :
    p.advance_burst = (false, p) := by
  have hlen : p.bursts.length ≤ p.current_burst_index := by
    simpa [Process.is_complete] using h
  unfold Process.advance_burst
  rw [List.getElem?_eq_none hlen]

/-- Witness for `c10_advance_frame` at a concrete completed process. -/
theorem c10_advance_frame_witness :
    doneProc.is_complete = true ∧ doneProc.advance_burst = (false, doneProc) :=
  ⟨rfl, c10_advance_frame doneProc rfl⟩

/-- C5 (confirmed): the FCFS scenario of the spec.  P1 occupies the single
CPU from its dispatch at tick 0 through tick 5; it finishes at tick 5, at
which point P2 is dispatched; P2 finishes at tick 8 with accumulated
`wait_time` 5. -/
theorem c5_fcfs_scenario :
    ((iterN fcfsStep 1 fcfsS0).cpu_queue.map (Option.map Process.pid) = [some 1]) ∧
    ((iterN fcfsStep 2 fcfsS0).cpu_queue.map (Option.map Process.pid) = [some 1]) ∧
    ((iterN fcfsStep 3 fcfsS0).cpu_queue.map (Option.map Process.pid) = [some 1]) ∧
    ((iterN fcfsStep 4 fcfsS0).cpu_queue.map (Option.map Process.pid) = [some 1]) ∧
    ((iterN fcfsStep 5 fcfsS0).cpu_queue.map (Option.map Process.pid) = [some 1]) ∧
    ((iterN fcfsStep 6 fcfsS0).finished.map (fun p => (p.pid, p.end_time)) = [(1, 5)]) ∧
    ((iterN fcfsStep 6 fcfsS0).cpu_queue.map (Option.map Process.pid) = [some 2]) ∧
    ((iterN fcfsStep 9 fcfsS0).finished.map (fun p => (p.pid, p.end_time, p.wait_time)) =
      [(1, 5, 0), (2, 8, 5)]) := by
  decide

/-- C6 (confirmed): the Round Robin scenario.  After the step at tick 2 the
process is back on the CPU with 2 ticks of burst progress and a fresh
quantum counter of 2 — it was preempted on quantum expiry and immediately
re-dispatched (the counter would have been 0 had it merely kept running);
likewise after the step at tick 4; it finishes at tick 5, the slot and its
counter then being free. -/
theorem c6_rr_scenario :
    ((iterN rrStep 2 rrS0).cpu_queue.map
        (Option.map (fun pq => (pq.1.pid, pq.1.time_in_burst, pq.2))) = [some (1, 1, 1)]) ∧
    ((iterN rrStep 3 rrS0).cpu_queue.map
        (Option.map (fun pq => (pq.1.pid, pq.1.time_in_burst, pq.2))) = [some (1, 2, 2)]) ∧
    ((iterN rrStep 5 rrS0).cpu_queue.map
        (Option.map (fun pq => (pq.1.pid, pq.1.time_in_burst, pq.2))) = [some (1, 4, 2)]) ∧
    ((iterN rrStep 6 rrS0).cpu_queue = [none]) ∧
    ((iterN rrStep 6 rrS0).finished.map (fun p => (p.pid, p.end_time)) = [(1, 5)]) := by
  decide

/-- C4 counterexample: in the SRTF scenario the preemption at tick 2
leaves P1 with remaining time 7, not 6 as the claim states — the
preemption check of `SRTFScheduler.step` runs before the tick's resource
advance, so P1 has executed only one tick when it is compared and
displaced. -/
theorem c4_srtf_scenario_counterexample :
    ((iterN srtfStep 3 srtfS0).clock = 3) ∧
    ((iterN srtfStep 3 srtfS0).cpu_queue.map (Option.map Process.pid) = [some 2]) ∧
    ((iterN srtfStep 3 srtfS0).ready_queue.map (fun p => (p.pid, remTime p)) =
      [(1, ((7 : Int) : WithTop Int))]) ∧
    (((7 : Int) : WithTop Int) ≠ ((6 : Int) : WithTop Int)) := by
  decide

/-- C4 amended: as the claim, but P1 is preempted with remaining time 7
(not 6) and resumes with 7 ticks (not 6) of its burst remaining: P1 is
dispatched at tick 0; at tick 2 it is preempted (its remaining 7 exceeds
P2's 3) and P2 takes the CPU; P2 finishes at tick 5 and P1 resumes. -/
theorem c4_srtf_scenario_amended :
    ((iterN srtfStep 1 srtfS0).cpu_queue.map (Option.map Process.pid) = [some 1]) ∧
    ((iterN srtfStep 3 srtfS0).cpu_queue.map
        (Option.map (fun p => (p.pid, remTime p))) = [some (2, ((3 : Int) : WithTop Int))]) ∧
    ((iterN srtfStep 3 srtfS0).ready_queue.map (fun p => (p.pid, remTime p)) =
      [(1, ((7 : Int) : WithTop Int))]) ∧
    ((iterN srtfStep 6 srtfS0).finished.map (fun p => (p.pid, p.end_time)) = [(2, 5)]) ∧
    ((iterN srtfStep 6 srtfS0).cpu_queue.map
        (Option.map (fun p => (p.pid, remTime p))) = [some (1, ((7 : Int) : WithTop Int))]) := by
  decide

/-- C7 counterexample: `add_process` accepts a process descriptor with an
empty burst list — no rejection is reported, and the scheduler's state does
change (the process enters `not_arrived` and hence the simulation). -/
theorem c7_validation_counterexample :
    emptyBurstProc.bursts = [] ∧
    (addProcess fcfsInit emptyBurstProc).not_arrived = [emptyBurstProc] ∧
    addProcess fcfsInit emptyBurstProc ≠ fcfsInit := by
  decide

/-- C7 amended: `add_process` performs no validation at all — every
descriptor (empty burst list, non-positive durations, duplicate ids alike)
is accepted and enqueued into `not_arrived`, the rest of the state
untouched. -/
theorem c7_validation_amended (s : SchedState) (p : Process) :
    (addProcess s p).not_arrived.Perm (p :: s.not_arrived) ∧
    (addProcess s p).ready_queue = s.ready_queue ∧
    (addProcess s p).wait_queue = s.wait_queue ∧
    (addProcess s p).cpu_queue = s.cpu_queue ∧
    (addProcess s p).io_queue = s.io_queue ∧
    (addProcess s p).finished = s.finished ∧
    (addProcess s p).clock = s.clock := by
  refine ⟨?_, rfl, rfl, rfl, rfl, rfl, rfl⟩
  exact (List.perm_insertionSort _ _).trans (List.perm_append_singleton _ _)

/-- C2 counterexample: both the base `Scheduler.add_process` and the part01
`SRTFScheduler.add_process` place a not-yet-arrived process directly into
the Ready queue: a process with arrival time 5 sits in Ready while the
clock is 0. -/
theorem c2_arrival_gate_counterexample :
    ((pkgAddProcess {} lateProc).ready_queue.map
        (fun p => (p.pid, p.arrival_time, p.state)) = [(3, 5, PState.ready)]) ∧
    ((pkgAddProcess {} lateProc).clock = 0) ∧
    ((part01AddProcess [] lateProc).map (fun p => (p.pid, p.arrival_time, p.state)) =
      [(3, 5, PState.ready)]) ∧
    ((0 : Nat) < 5) := by
  decide

/-- C3 counterexample: the part01 `_preemption_check` compares initial
burst durations, not remaining times.  With the occupant 4 ticks into a
`[CPU:5]` burst (true remaining 1) and a fresh `[CPU:4]` ready process
(true remaining 4), it preempts (4 < 5 on initial durations) even though
the ready process's true remaining time exceeds the occupant's — the
claimed iff fails on this variant. -/
theorem c3_srtf_preemption_counterexample :
    ((part01PreemptionCheck (some runC3) [readyC3]).1.map Process.pid = some 2) ∧
    ¬ (remTime readyC3 < remTime runC3) ∧
    (minRem [readyC3] = ((4 : Int) : WithTop Int)) ∧
    (remTime runC3 = ((1 : Int) : WithTop Int)) := by
  decide

/-- C1 counterexample: `FCFSScheduler.step` does not apply the phases in
the claimed order.  On a state with one ready process and a free CPU, the
claimed order (aging before dispatch) increments the dispatched process's
`wait_time` to 1, while the code (aging after dispatch) leaves it 0 — the
two step functions give different states. -/
theorem c1_phase_order_counterexample :
    ((fcfsStep c1State).cpu_queue.map (Option.map Process.wait_time) = [some 0]) ∧
    ((claimOrderStep c1State).cpu_queue.map (Option.map Process.wait_time) = [some 1]) ∧
    fcfsStep c1State ≠ claimOrderStep c1State := by
  decide

/-- C8 counterexample: `_adapt_quantum` samples `len(ready_queue)` plus the
number of occupied CPU slots, not the Ready-queue length alone.  With base
quantum 4, one ready process, one occupied CPU and empty history, the code
computes average load 2 and keeps quantum 4; the claimed rule (ready length
alone, average 1 < 2) would produce 6. -/
theorem c8_adaptive_counterexample :
    ((adaptQuantum 4 [dummyProc] [some dummyProc] []).1 = 4) ∧
    ((claimAdaptQuantum 4 [dummyProc] []).1 = 6) ∧
    ((4 : Int) ≠ 6) := by
  refine ⟨?_, ?_, by decide⟩
  · norm_num [adaptQuantum, dummyProc]
  · norm_num [claimAdaptQuantum, dummyProc]

/-- Exact division-free characterization of `_adapt_quantum`'s quantum:
trailing window of the last 10 samples, average > 5 ⇒ `max(2, base-2)`,
average < 2 ⇒ `base+2`, else `base`, with each sample the ready-queue
length plus the number of occupied CPU slots. -/
theorem adaptQuantum_eq_int (base : Int) (rq : List Process)
    (cpus : List (Option Process)) (hist : List Nat) :
    (adaptQuantum base rq cpus hist).1 = adaptQuantumInt base rq cpus hist := by
  simp only [adaptQuantum, adaptQuantumInt]
  set load := rq.length + (cpus.filter (fun o => o.isSome)).length with hload
  set hist' := if 10 < (hist ++ [load]).length then (hist ++ [load]).tail else hist ++ [load] with hh
  have hlen : 0 < hist'.length := by
    rw [hh]
    split
    · rename_i h
      rw [List.length_tail]
      simp only [List.length_append, List.length_cons, List.length_nil] at h ⊢
      omega
    · simp
  have key1 : (5 : ℚ) < (hist'.sum : ℚ) / (hist'.length : ℚ) ↔ 5 * hist'.length < hist'.sum := by
    rw [lt_div_iff₀ (by exact_mod_cast hlen)]
    constructor
    · intro h; exact_mod_cast h
    · intro h; exact_mod_cast h
  have key2 : (hist'.sum : ℚ) / (hist'.length : ℚ) < 2 ↔ hist'.sum < 2 * hist'.length := by
    rw [div_lt_iff₀ (by exact_mod_cast hlen)]
    constructor
    · intro h; exact_mod_cast h
    · intro h; exact_mod_cast h
  by_cases h5 : 5 * hist'.length < hist'.sum
  · rw [if_pos (key1.mpr h5), if_pos h5]
  · rw [if_neg (fun hc => h5 (key1.mp hc)), if_neg h5]
    by_cases h2 : hist'.sum < 2 * hist'.length
    · rw [if_pos (key2.mpr h2), if_pos h2]
    · rw [if_neg (fun hc => h2 (key2.mp hc)), if_neg h2]

/-- When no CPU slot is free, the dispatch loop returns its inputs
unchanged (the source's `while` guard fails before any pop). -/
theorem dispatchCpusLoop_of_full (c : Nat) (cpus : List (Option Process)) (l : List Process)
    (h : cpus.any (fun o => o.isNone) = false) :
    dispatchCpusLoop c cpus l = (cpus, l) := by
  cases l with
  | nil => rfl
  | cons p rest => simp [dispatchCpusLoop, h]

/-- C1 amended: `FCFSScheduler.step` runs admission, then resource
advance, then dispatch, then the clock increment, and ages `wait_time`
LAST, over the processes still in Ready after dispatch (there is no
`io_time` aging phase at all — io time is accumulated inside
`advance_burst`).  Consequence proved here: a ready process dispatched
during a step keeps its `wait_time` unchanged by that step, while every
process left in Ready gains one tick — under the claimed order (aging
before dispatch) the dispatched head would have been aged too. -/
theorem c1_phase_order_amended (s : SchedState) (p : Process) (rest : List Process)
    (h1 : s.not_arrived = []) (h2 : s.cpu_queue = [none]) (h3 : s.io_queue = [])
    (h4 : s.wait_queue = []) (h5 : s.ready_queue = p :: rest) (h6 : p.state = PState.ready) :
    ∃ q : Process,
      (fcfsStep s).cpu_queue = [some q] ∧
      q.pid = p.pid ∧ q.wait_time = p.wait_time ∧
      (fcfsStep s).ready_queue = rest.map (fun x => { x with wait_time := x.wait_time + 1 }) ∧
      (fcfsStep s).clock = s.clock + 1 := by
  refine ⟨{ p with
            state := PState.running
            first_run_time := if p.first_run_time = none then some s.clock else p.first_run_time }, ?_⟩
  simp [fcfsStep, checkArrivals, admitLoop, phaseCpus, phaseIos, phaseDispatchCpus,
        phaseDispatchIos, processCpusLoop, processIosLoop,
        dispatchCpusLoop, dispatchIosLoop, clockAndAge, h1, h2, h3, h4, h5, h6,
        dispatchCpusLoop_of_full, assignFree]

/-- Witness for `c1_phase_order_amended` at a concrete one-process state. -/
theorem c1_phase_order_amended_witness :
    ∃ q : Process,
      (fcfsStep c1WitState).cpu_queue = [some q] ∧
      q.pid = c1WitProc.pid ∧ q.wait_time = c1WitProc.wait_time ∧
      (fcfsStep c1WitState).ready_queue = [] ∧
      (fcfsStep c1WitState).clock = c1WitState.clock + 1 := by
  have := c1_phase_order_amended c1WitState c1WitProc [] rfl rfl rfl rfl rfl rfl
  simpa using this

/-- A lower bound for all elements of a list bounds its `foldr min ⊤`. -/
theorem le_foldr_min (a : WithTop Int) (l : List (WithTop Int))
    (h : ∀ x ∈ l, a ≤ x) : a ≤ l.foldr min ⊤ := by
  induction l with
  | nil => exact le_top
  | cons x xs ih =>
    exact le_min (h x (List.mem_cons_self x xs)) (ih fun y hy => h y (List.mem_cons_of_mem x hy))

/-- The head of the sorted ready queue realizes the smallest remaining
time of the queue. -/
theorem sortReady_head_min (l : List Process) (q0 : Process) (qs : List Process)
    (h : sortReady l = q0 :: qs) : remTime q0 = minRem l := by
  have hsort : (q0 :: qs).Sorted remLE := by
    rw [← h]; exact List.sorted_insertionSort remLE l
  have hperm : (q0 :: qs).Perm l := by
    rw [← h]; exact List.perm_insertionSort remLE l
  have hfold : (l.map remTime).foldr min ⊤ = ((q0 :: qs).map remTime).foldr min ⊤ :=
    ((hperm.map remTime).symm.foldr_eq) ⊤
  have hmono : ∀ x ∈ qs.map remTime, remTime q0 ≤ x := by
    intro x hx
    obtain ⟨q, hq, rfl⟩ := List.mem_map.mp hx
    exact List.rel_of_sorted_cons hsort q hq
  unfold minRem
  rw [hfold]
  simp only [List.map_cons, List.foldr_cons]
  exact (min_eq_left (le_foldr_min _ _ hmono)).symm

/-- C3 amended: the A02 `SRTFScheduler._check_preemption` (single CPU)
preempts the running process exactly when the smallest TRUE remaining time
over the ready queue (burst duration minus ticks already spent, io and
exhausted processes counting as infinite) is strictly smaller than the
running process's true remaining time, and does nothing when the ready
queue is empty.  The part01 `_preemption_check` does NOT satisfy this rule
— it compares initial burst durations (see the C3 counterexample). -/
theorem c3_srtf_preemption_amended (s : SchedState) (r : Process)
    (hcpu : s.cpu_queue = [some r]) :
    (s.ready_queue = [] → checkPreemption s = s) ∧
    (s.ready_queue ≠ [] →
      (((checkPreemption s).cpu_queue = [none]) ↔ minRem s.ready_queue < remTime r)) := by
  constructor
  · intro h
    simp [checkPreemption, h]
  · intro h
    obtain ⟨q0, qs, hs⟩ : ∃ q0 qs, sortReady s.ready_queue = q0 :: qs := by
      cases hs : sortReady s.ready_queue with
      | nil =>
        exfalso
        have := List.perm_insertionSort remLE s.ready_queue
        rw [show s.ready_queue.insertionSort remLE = sortReady s.ready_queue from rfl, hs] at this
        exact h this.symm.eq_nil
      | cons a l => exact ⟨a, l, rfl⟩
    have hmin := sortReady_head_min s.ready_queue q0 qs hs
    rw [← hmin]
    unfold checkPreemption
    rw [if_neg h, hcpu, hs]
    by_cases hlt : remTime q0 < remTime r
    · simp [preemptLoop, hlt]
    · simp [preemptLoop, hlt]

/-- Witness for `c3_srtf_preemption_amended` at a concrete occupied
state. -/
theorem c3_srtf_preemption_amended_witness :
    ((c3WitState.ready_queue = [] → checkPreemption c3WitState = c3WitState) ∧
     (c3WitState.ready_queue ≠ [] →
       (((checkPreemption c3WitState).cpu_queue = [none]) ↔
         minRem c3WitState.ready_queue < remTime runC3))) :=
  c3_srtf_preemption_amended c3WitState runC3 rfl

/-- `onSlots` on the empty slot list. -/
theorem onSlots_nil : onSlots [] = [] := rfl

/-- `onSlots` skips a free slot. -/
theorem onSlots_none (l : List (Option Process)) : onSlots (none :: l) = onSlots l := rfl

/-- `onSlots` keeps an occupant. -/
theorem onSlots_some (p : Process) (l : List (Option Process)) :
    onSlots (some p :: l) = p :: onSlots l := rfl

/-- `pidsOf` of the empty list. -/
theorem pidsOf_nil : pidsOf [] = 0 := rfl

/-- `pidsOf` of a cons. -/
theorem pidsOf_cons (p : Process) (l : List Process) : pidsOf (p :: l) = p.pid ::ₘ pidsOf l := rfl

/-- `pidsOf` of an append. -/
theorem pidsOf_append (l₁ l₂ : List Process) : pidsOf (l₁ ++ l₂) = pidsOf l₁ + pidsOf l₂ := by
  simp [pidsOf]

/-- `advance_burst` never changes a process's id, arrival time or state. -/
theorem advance_frame (p : Process) :
    (p.advance_burst).2.pid = p.pid ∧ (p.advance_burst).2.arrival_time = p.arrival_time ∧
      (p.advance_burst).2.state = p.state := by
  unfold Process.advance_burst
  rcases h : p.bursts[p.current_burst_index]? with _ | b
  · exact ⟨rfl, rfl, rfl⟩
  · rcases b with d | d <;> dsimp only <;> split <;> exact ⟨rfl, rfl, rfl⟩

/-- The admission loop conserves process ids. -/
theorem admitLoop_pids (c : Nat) (na : List Process) :
    pidsOf (admitLoop c na).1 + pidsOf (admitLoop c na).2 = pidsOf na := by
  induction na with
  | nil => rfl
  | cons p rest ih =>
    by_cases h : p.arrival_time ≤ c
    · simp only [admitLoop, if_pos h, pidsOf_cons]
      rw [Multiset.add_cons, ih]
    · simp [admitLoop, h, pidsOf_nil]

/-- The admission loop only admits processes that have arrived. -/
theorem admitLoop_arrival (c : Nat) (na : List Process) :
    ∀ q ∈ (admitLoop c na).2, q.arrival_time ≤ c := by
  induction na with
  | nil => simp [admitLoop]
  | cons p rest ih =>
    by_cases h : p.arrival_time ≤ c
    · simp only [admitLoop, if_pos h]
      intro q hq
      rcases List.mem_cons.mp hq with rfl | hq'
      · exact h
      · exact ih q hq'
    · simp [admitLoop, h]

/-- Admitted processes are tagged ready. -/
theorem admitLoop_ready (c : Nat) (na : List Process) :
    ∀ q ∈ (admitLoop c na).2, q.state = PState.ready := by
  induction na with
  | nil => simp [admitLoop]
  | cons p rest ih =>
    by_cases h : p.arrival_time ≤ c
    · simp only [admitLoop, if_pos h]
      intro q hq
      rcases List.mem_cons.mp hq with rfl | hq'
      · rfl
      · exact ih q hq'
    · simp [admitLoop, h]

/-- The CPU slot loop conserves process ids across slots, wait queue and
finished list. -/
theorem processCpusLoop_pids (c : Nat) (cpus : List (Option Process)) (wq fin : List Process) :
    pidsOf (onSlots (processCpusLoop c cpus wq fin).1) +
      pidsOf (processCpusLoop c cpus wq fin).2.1 +
      pidsOf (processCpusLoop c cpus wq fin).2.2 =
    pidsOf (onSlots cpus) + pidsOf wq + pidsOf fin := by
  induction cpus generalizing wq fin with
  | nil => simp [processCpusLoop]
  | cons o rest ih =>
    cases o with
    | none => simpa [processCpusLoop, onSlots_none] using ih wq fin
    | some p =>
      have hpid : (p.advance_burst).2.pid = p.pid := (advance_frame p).1
      simp only [processCpusLoop]
      split_ifs with h1 h2
      · rw [onSlots_none, ih wq _, pidsOf_append, onSlots_some, pidsOf_cons]
        simp only [pidsOf_cons, pidsOf_nil, hpid]
        rw [← Multiset.singleton_add, ← Multiset.singleton_add]
        abel
      · rw [onSlots_none, ih _ fin, pidsOf_append, onSlots_some, pidsOf_cons]
        simp only [pidsOf_cons, pidsOf_nil, hpid]
        rw [← Multiset.singleton_add, ← Multiset.singleton_add]
        abel
      · dsimp only
        rw [onSlots_some, onSlots_some, pidsOf_cons, pidsOf_cons, hpid,
            Multiset.cons_add, Multiset.cons_add, Multiset.cons_add, Multiset.cons_add,
            ih wq fin]

/-- The io slot loop conserves process ids across slots, ready queue and
finished list. -/
theorem processIosLoop_pids (c : Nat) (devs : List (Option Process)) (rq fin : List Process) :
    pidsOf (onSlots (processIosLoop c devs rq fin).1) +
      pidsOf (processIosLoop c devs rq fin).2.1 +
      pidsOf (processIosLoop c devs rq fin).2.2 =
    pidsOf (onSlots devs) + pidsOf rq + pidsOf fin := by
  induction devs generalizing rq fin with
  | nil => simp [processIosLoop]
  | cons o rest ih =>
    cases o with
    | none => simpa [processIosLoop, onSlots_none] using ih rq fin
    | some p =>
      have hpid : (p.advance_burst).2.pid = p.pid := (advance_frame p).1
      simp only [processIosLoop]
      split_ifs with h1 h2
      · rw [onSlots_none, ih rq _, pidsOf_append, onSlots_some, pidsOf_cons]
        simp only [pidsOf_cons, pidsOf_nil, hpid]
        rw [← Multiset.singleton_add, ← Multiset.singleton_add]
        abel
      · rw [onSlots_none, ih _ fin, pidsOf_append, onSlots_some, pidsOf_cons]
        simp only [pidsOf_cons, pidsOf_nil, hpid]
        rw [← Multiset.singleton_add, ← Multiset.singleton_add]
        abel
      · dsimp only
        rw [onSlots_some, onSlots_some, pidsOf_cons, pidsOf_cons, hpid,
            Multiset.cons_add, Multiset.cons_add, Multiset.cons_add, Multiset.cons_add,
            ih rq fin]

/-- Every member of the wait queue produced by the CPU slot loop was there
before or is a routed occupant, tagged waiting, with the arrival time of a
slot occupant. -/
theorem processCpusLoop_wq_mem (c : Nat) (cpus : List (Option Process)) (wq fin : List Process) :
    ∀ q ∈ (processCpusLoop c cpus wq fin).2.1,
      q ∈ wq ∨ (q.state = PState.waiting ∧ ∃ p ∈ onSlots cpus,
        q.arrival_time = p.arrival_time) := by
  induction cpus generalizing wq fin with
  | nil => exact fun q hq => Or.inl (by simpa [processCpusLoop] using hq)
  | cons o rest ih =>
    cases o with
    | none =>
      intro q hq
      rcases ih wq fin q (by simpa [processCpusLoop] using hq) with h | ⟨h1, p, hp, h2⟩
      · exact Or.inl h
      · exact Or.inr ⟨h1, p, by simpa [onSlots_none] using hp, h2⟩
    | some p =>
      intro q hq
      have harr : (p.advance_burst).2.arrival_time = p.arrival_time := (advance_frame p).2.1
      simp only [processCpusLoop] at hq
      split_ifs at hq with h1 h2
      · rcases ih wq _ q (by simpa using hq) with h | ⟨hs, x, hx, hax⟩
        · exact Or.inl h
        · exact Or.inr ⟨hs, x, by simp [onSlots_some, hx], hax⟩
      · rcases ih _ fin q (by simpa using hq) with h | ⟨hs, x, hx, hax⟩
        · rcases List.mem_append.mp h with h' | h'
          · exact Or.inl h'
          · rcases List.mem_singleton.mp h' with rfl
            exact Or.inr ⟨rfl, p, by simp [onSlots_some], harr⟩
        · exact Or.inr ⟨hs, x, by simp [onSlots_some, hx], hax⟩
      · rcases ih wq fin q (by simpa using hq) with h | ⟨hs, x, hx, hax⟩
        · exact Or.inl h
        · exact Or.inr ⟨hs, x, by simp [onSlots_some, hx], hax⟩

/-- Every member of the ready queue produced by the io slot loop was there
before or is a routed occupant, tagged ready, with the arrival time of a
slot occupant. -/
theorem processIosLoop_rq_mem (c : Nat) (devs : List (Option Process)) (rq fin : List Process) :
    ∀ q ∈ (processIosLoop c devs rq fin).2.1,
      q ∈ rq ∨ (q.state = PState.ready ∧ ∃ p ∈ onSlots devs,
        q.arrival_time = p.arrival_time) := by
  induction devs generalizing rq fin with
  | nil => exact fun q hq => Or.inl (by simpa [processIosLoop] using hq)
  | cons o rest ih =>
    cases o with
    | none =>
      intro q hq
      rcases ih rq fin q (by simpa [processIosLoop] using hq) with h | ⟨h1, p, hp, h2⟩
      · exact Or.inl h
      · exact Or.inr ⟨h1, p, by simpa [onSlots_none] using hp, h2⟩
    | some p =>
      intro q hq
      have harr : (p.advance_burst).2.arrival_time = p.arrival_time := (advance_frame p).2.1
      simp only [processIosLoop] at hq
      split_ifs at hq with h1 h2
      · rcases ih rq _ q (by simpa using hq) with h | ⟨hs, x, hx, hax⟩
        · exact Or.inl h
        · exact Or.inr ⟨hs, x, by simp [onSlots_some, hx], hax⟩
      · rcases ih _ fin q (by simpa using hq) with h | ⟨hs, x, hx, hax⟩
        · rcases List.mem_append.mp h with h' | h'
          · exact Or.inl h'
          · rcases List.mem_singleton.mp h' with rfl
            exact Or.inr ⟨rfl, p, by simp [onSlots_some], harr⟩
        · exact Or.inr ⟨hs, x, by simp [onSlots_some, hx], hax⟩
      · rcases ih rq fin q (by simpa using hq) with h | ⟨hs, x, hx, hax⟩
        · exact Or.inl h
        · exact Or.inr ⟨hs, x, by simp [onSlots_some, hx], hax⟩

/-- Every occupant left by the CPU slot loop has the arrival time of an
input occupant. -/
theorem processCpusLoop_slots_mem (c : Nat) (cpus : List (Option Process)) (wq fin : List Process) :
    ∀ q ∈ onSlots (processCpusLoop c cpus wq fin).1,
      ∃ p ∈ onSlots cpus, q.arrival_time = p.arrival_time := by
  induction cpus generalizing wq fin with
  | nil => simp [processCpusLoop, onSlots_nil]
  | cons o rest ih =>
    cases o with
    | none =>
      intro q hq
      obtain ⟨p, hp, ha⟩ := ih wq fin q (by simpa [processCpusLoop, onSlots_none] using hq)
      exact ⟨p, by simpa [onSlots_none] using hp, ha⟩
    | some p =>
      intro q hq
      have harr : (p.advance_burst).2.arrival_time = p.arrival_time := (advance_frame p).2.1
      simp only [processCpusLoop] at hq
      split_ifs at hq with h1 h2
      · obtain ⟨x, hx, ha⟩ := ih wq _ q (by simpa [onSlots_none] using hq)
        exact ⟨x, by simp [onSlots_some, hx], ha⟩
      · obtain ⟨x, hx, ha⟩ := ih _ fin q (by simpa [onSlots_none] using hq)
        exact ⟨x, by simp [onSlots_some, hx], ha⟩
      · dsimp only at hq
        rw [onSlots_some] at hq
        rcases List.mem_cons.mp hq with rfl | hq'
        · exact ⟨p, by simp [onSlots_some], harr⟩
        · obtain ⟨x, hx, ha⟩ := ih wq fin q hq'
          exact ⟨x, by simp [onSlots_some, hx], ha⟩

/-- Every occupant left by the io slot loop has the arrival time of an
input occupant. -/
theorem processIosLoop_slots_mem (c : Nat) (devs : List (Option Process)) (rq fin : List Process) :
    ∀ q ∈ onSlots (processIosLoop c devs rq fin).1,
      ∃ p ∈ onSlots devs, q.arrival_time = p.arrival_time := by
  induction devs generalizing rq fin with
  | nil => simp [processIosLoop, onSlots_nil]
  | cons o rest ih =>
    cases o with
    | none =>
      intro q hq
      obtain ⟨p, hp, ha⟩ := ih rq fin q (by simpa [processIosLoop, onSlots_none] using hq)
      exact ⟨p, by simpa [onSlots_none] using hp, ha⟩
    | some p =>
      intro q hq
      have harr : (p.advance_burst).2.arrival_time = p.arrival_time := (advance_frame p).2.1
      simp only [processIosLoop] at hq
      split_ifs at hq with h1 h2
      · obtain ⟨x, hx, ha⟩ := ih rq _ q (by simpa [onSlots_none] using hq)
        exact ⟨x, by simp [onSlots_some, hx], ha⟩
      · obtain ⟨x, hx, ha⟩ := ih _ fin q (by simpa [onSlots_none] using hq)
        exact ⟨x, by simp [onSlots_some, hx], ha⟩
      · dsimp only at hq
        rw [onSlots_some] at hq
        rcases List.mem_cons.mp hq with rfl | hq'
        · exact ⟨p, by simp [onSlots_some], harr⟩
        · obtain ⟨x, hx, ha⟩ := ih rq fin q hq'
          exact ⟨x, by simp [onSlots_some, hx], ha⟩

/-- Occupants after first-free-slot assignment: the assigned process or an
old occupant. -/
theorem assignFree_mem (p : Process) (cpus : List (Option Process)) :
    ∀ q ∈ onSlots (assignFree p cpus), q = p ∨ q ∈ onSlots cpus := by
  induction cpus with
  | nil => simp [assignFree, onSlots_nil]
  | cons o rest ih =>
    cases o with
    | none =>
      intro q hq
      rw [assignFree, onSlots_some] at hq
      rcases List.mem_cons.mp hq with rfl | hq'
      · exact Or.inl rfl
      · exact Or.inr (by simpa [onSlots_none] using hq')
    | some x =>
      intro q hq
      rw [assignFree, onSlots_some] at hq
      rcases List.mem_cons.mp hq with rfl | hq'
      · exact Or.inr (by simp [onSlots_some])
      · rcases ih q hq' with h | h
        · exact Or.inl h
        · exact Or.inr (by simp [onSlots_some, h])

/-- When a slot is free, assignment adds exactly the assigned id. -/
theorem assignFree_pids (p : Process) (cpus : List (Option Process))
    (h : cpus.any (fun o => o.isNone) = true) :
    pidsOf (onSlots (assignFree p cpus)) = p.pid ::ₘ pidsOf (onSlots cpus) := by
  induction cpus with
  | nil => simp at h
  | cons o rest ih =>
    cases o with
    | none => rw [assignFree, onSlots_some, onSlots_none, pidsOf_cons]
    | some x =>
      have h' : rest.any (fun o => o.isNone) = true := by simpa using h
      rw [assignFree, onSlots_some, onSlots_some, pidsOf_cons, pidsOf_cons, ih h',
          Multiset.cons_swap]

/-- The CPU dispatch loop conserves process ids when all ready processes
carry the ready tag (the source drops a popped process otherwise). -/
theorem dispatchCpusLoop_pids (c : Nat) (cpus : List (Option Process)) (rq : List Process)
    (hr : ∀ q ∈ rq, q.state = PState.ready) :
    pidsOf (onSlots (dispatchCpusLoop c cpus rq).1) + pidsOf (dispatchCpusLoop c cpus rq).2 =
    pidsOf (onSlots cpus) + pidsOf rq := by
  induction rq generalizing cpus with
  | nil => simp [dispatchCpusLoop]
  | cons p rest ih =>
    by_cases hfree : cpus.any (fun o => o.isNone) = true
    · have hp : p.state = PState.ready := hr p (List.mem_cons_self p rest)
      rw [dispatchCpusLoop, if_pos hfree, if_pos hp,
          ih _ (fun q hq => hr q (List.mem_cons_of_mem p hq)),
          assignFree_pids _ _ hfree, pidsOf_cons, Multiset.cons_add, Multiset.add_cons]
    · rw [dispatchCpusLoop_of_full c cpus (p :: rest)
        (by revert hfree; cases cpus.any (fun o => o.isNone) <;> simp)]

/-- Processes left in the ready queue by the CPU dispatch loop were in it
before. -/
theorem dispatchCpusLoop_leftover (c : Nat) (cpus : List (Option Process)) (rq : List Process) :
    ∀ q ∈ (dispatchCpusLoop c cpus rq).2, q ∈ rq := by
  induction rq generalizing cpus with
  | nil => simp [dispatchCpusLoop]
  | cons p rest ih =>
    by_cases hfree : cpus.any (fun o => o.isNone) = true
    · by_cases hp : p.state = PState.ready
      · rw [dispatchCpusLoop, if_pos hfree, if_pos hp]
        exact fun q hq => List.mem_cons_of_mem p (ih _ q hq)
      · rw [dispatchCpusLoop, if_pos hfree, if_neg hp]
        exact fun q hq => List.mem_cons_of_mem p (ih _ q hq)
    · rw [dispatchCpusLoop_of_full c cpus (p :: rest)
        (by revert hfree; cases cpus.any (fun o => o.isNone) <;> simp)]
      exact fun q hq => hq

/-- Occupants after the CPU dispatch loop: old occupants, or dispatched
processes with the arrival time of a ready-queue member. -/
theorem dispatchCpusLoop_slots_mem (c : Nat) (cpus : List (Option Process)) (rq : List Process) :
    ∀ q ∈ onSlots (dispatchCpusLoop c cpus rq).1,
      q ∈ onSlots cpus ∨ ∃ p ∈ rq, q.arrival_time = p.arrival_time := by
  induction rq generalizing cpus with
  | nil => exact fun q hq => Or.inl (by simpa [dispatchCpusLoop] using hq)
  | cons p rest ih =>
    by_cases hfree : cpus.any (fun o => o.isNone) = true
    · by_cases hp : p.state = PState.ready
      · rw [dispatchCpusLoop, if_pos hfree, if_pos hp]
        intro q hq
        rcases ih _ q hq with h | ⟨x, hx, ha⟩
        · rcases assignFree_mem _ _ q h with rfl | h'
          · exact Or.inr ⟨p, List.mem_cons_self p rest, rfl⟩
          · exact Or.inl h'
        · exact Or.inr ⟨x, List.mem_cons_of_mem p hx, ha⟩
      · rw [dispatchCpusLoop, if_pos hfree, if_neg hp]
        intro q hq
        rcases ih _ q hq with h | ⟨x, hx, ha⟩
        · exact Or.inl h
        · exact Or.inr ⟨x, List.mem_cons_of_mem p hx, ha⟩
    · rw [dispatchCpusLoop_of_full c cpus (p :: rest)
        (by revert hfree; cases cpus.any (fun o => o.isNone) <;> simp)]
      exact fun q hq => Or.inl hq

/-- When no io slot is free, the io dispatch loop returns its inputs
unchanged. -/
theorem dispatchIosLoop_of_full (devs : List (Option Process)) (l : List Process)
    (h : devs.any (fun o => o.isNone) = false) :
    dispatchIosLoop devs l = (devs, l) := by
  cases l with
  | nil => rfl
  | cons p rest => simp [dispatchIosLoop, h]

/-- The io dispatch loop conserves process ids when all waiting processes
carry the waiting tag. -/
theorem dispatchIosLoop_pids (devs : List (Option Process)) (wq : List Process)
    (hw : ∀ q ∈ wq, q.state = PState.waiting) :
    pidsOf (onSlots (dispatchIosLoop devs wq).1) + pidsOf (dispatchIosLoop devs wq).2 =
    pidsOf (onSlots devs) + pidsOf wq := by
  induction wq generalizing devs with
  | nil => simp [dispatchIosLoop]
  | cons p rest ih =>
    by_cases hfree : devs.any (fun o => o.isNone) = true
    · have hp : p.state = PState.waiting := hw p (List.mem_cons_self p rest)
      rw [dispatchIosLoop, if_pos hfree, if_pos hp,
          ih _ (fun q hq => hw q (List.mem_cons_of_mem p hq)),
          assignFree_pids _ _ hfree, pidsOf_cons, Multiset.cons_add, Multiset.add_cons]
    · rw [dispatchIosLoop_of_full devs (p :: rest)
        (by revert hfree; cases devs.any (fun o => o.isNone) <;> simp)]

/-- Processes left in the wait queue by the io dispatch loop were in it
before. -/
theorem dispatchIosLoop_leftover (devs : List (Option Process)) (wq : List Process) :
    ∀ q ∈ (dispatchIosLoop devs wq).2, q ∈ wq := by
  induction wq generalizing devs with
  | nil => simp [dispatchIosLoop]
  | cons p rest ih =>
    by_cases hfree : devs.any (fun o => o.isNone) = true
    · by_cases hp : p.state = PState.waiting
      · rw [dispatchIosLoop, if_pos hfree, if_pos hp]
        exact fun q hq => List.mem_cons_of_mem p (ih _ q hq)
      · rw [dispatchIosLoop, if_pos hfree, if_neg hp]
        exact fun q hq => List.mem_cons_of_mem p (ih _ q hq)
    · rw [dispatchIosLoop_of_full devs (p :: rest)
        (by revert hfree; cases devs.any (fun o => o.isNone) <;> simp)]
      exact fun q hq => hq

/-- Occupants after the io dispatch loop: old occupants, or dispatched
processes with the arrival time of a wait-queue member. -/
theorem dispatchIosLoop_slots_mem (devs : List (Option Process)) (wq : List Process) :
    ∀ q ∈ onSlots (dispatchIosLoop devs wq).1,
      q ∈ onSlots devs ∨ ∃ p ∈ wq, q.arrival_time = p.arrival_time := by
  induction wq generalizing devs with
  | nil => exact fun q hq => Or.inl (by simpa [dispatchIosLoop] using hq)
  | cons p rest ih =>
    by_cases hfree : devs.any (fun o => o.isNone) = true
    · by_cases hp : p.state = PState.waiting
      · rw [dispatchIosLoop, if_pos hfree, if_pos hp]
        intro q hq
        rcases ih _ q hq with h | ⟨x, hx, ha⟩
        · rcases assignFree_mem _ _ q h with rfl | h'
          · exact Or.inr ⟨p, List.mem_cons_self p rest, rfl⟩
          · exact Or.inl h'
        · exact Or.inr ⟨x, List.mem_cons_of_mem p hx, ha⟩
      · rw [dispatchIosLoop, if_pos hfree, if_neg hp]
        intro q hq
        rcases ih _ q hq with h | ⟨x, hx, ha⟩
        · exact Or.inl h
        · exact Or.inr ⟨x, List.mem_cons_of_mem p hx, ha⟩
    · rw [dispatchIosLoop_of_full devs (p :: rest)
        (by revert hfree; cases devs.any (fun o => o.isNone) <;> simp)]
      exact fun q hq => Or.inl hq

/-- The preemption slot loop conserves process ids. -/
theorem preemptLoop_pids (cpus : List (Option Process)) (rq : List Process) :
    pidsOf (onSlots (preemptLoop cpus rq).1) + pidsOf (preemptLoop cpus rq).2 =
    pidsOf (onSlots cpus) + pidsOf rq := by
  induction cpus generalizing rq with
  | nil => simp [preemptLoop]
  | cons o rest ih =>
    cases o with
    | none => simpa [preemptLoop, onSlots_none] using ih rq
    | some cur =>
      cases rq with
      | nil =>
        dsimp only [preemptLoop]
        rw [onSlots_some, onSlots_some, pidsOf_cons, pidsOf_cons,
            Multiset.cons_add, Multiset.cons_add, ih []]
      | cons q0 qs =>
        by_cases hlt : remTime q0 < remTime cur
        · rw [preemptLoop, if_pos hlt]
          dsimp only
          rw [onSlots_none, onSlots_some, ih _, pidsOf_append, pidsOf_cons, pidsOf_cons,
              pidsOf_cons, pidsOf_nil]
          simp only [← Multiset.singleton_add]
          abel
        · rw [preemptLoop, if_neg hlt]
          dsimp only
          rw [onSlots_some, onSlots_some, pidsOf_cons, pidsOf_cons,
              Multiset.cons_add, Multiset.cons_add, ih (q0 :: qs)]

/-- Every member of the ready queue produced by the preemption loop was in
it before or is a preempted occupant tagged ready. -/
theorem preemptLoop_rq_mem (cpus : List (Option Process)) (rq : List Process) :
    ∀ q ∈ (preemptLoop cpus rq).2,
      q ∈ rq ∨ (q.state = PState.ready ∧ ∃ p ∈ onSlots cpus,
        q.arrival_time = p.arrival_time) := by
  induction cpus generalizing rq with
  | nil => exact fun q hq => Or.inl (by simpa [preemptLoop] using hq)
  | cons o rest ih =>
    cases o with
    | none =>
      intro q hq
      rcases ih rq q (by simpa [preemptLoop] using hq) with h | ⟨h1, p, hp, h2⟩
      · exact Or.inl h
      · exact Or.inr ⟨h1, p, by simpa [onSlots_none] using hp, h2⟩
    | some cur =>
      cases rq with
      | nil =>
        intro q hq
        rcases ih [] q (by simpa [preemptLoop] using hq) with h | ⟨h1, p, hp, h2⟩
        · exact Or.inl h
        · exact Or.inr ⟨h1, p, by simp [onSlots_some, hp], h2⟩
      | cons q0 qs =>
        by_cases hlt : remTime q0 < remTime cur
        · rw [preemptLoop, if_pos hlt]
          intro q hq
          rcases ih _ q hq with h | ⟨h1, p, hp, h2⟩
          · rcases List.mem_append.mp h with h' | h'
            · exact Or.inl h'
            · rcases List.mem_singleton.mp h' with rfl
              exact Or.inr ⟨rfl, cur, by simp [onSlots_some], rfl⟩
          · exact Or.inr ⟨h1, p, by simp [onSlots_some, hp], h2⟩
        · rw [preemptLoop, if_neg hlt]
          intro q hq
          rcases ih _ q (by simpa using hq) with h | ⟨h1, p, hp, h2⟩
          · exact Or.inl h
          · exact Or.inr ⟨h1, p, by simp [onSlots_some, hp], h2⟩

/-- Sorting the ready queue preserves the id multiset. -/
theorem sortReady_pids (l : List Process) : pidsOf (sortReady l) = pidsOf l := by
  unfold pidsOf
  exact Multiset.coe_eq_coe.mpr ((List.perm_insertionSort remLE l).map Process.pid)

/-- Sorting the ready queue preserves membership. -/
theorem sortReady_mem (l : List Process) (q : Process) : q ∈ sortReady l ↔ q ∈ l :=
  List.mem_insertionSort remLE

/-- Aging preserves the id multiset. -/
theorem pidsOf_age (l : List Process) :
    pidsOf (l.map (fun p => { p with wait_time := p.wait_time + 1 })) = pidsOf l := by
  induction l with
  | nil => rfl
  | cons p rest ih => rw [List.map_cons, pidsOf_cons, pidsOf_cons, ih]

/-- Admission conserves the tracked id multiset. -/
theorem checkArrivals_pids (s : SchedState) : allPids (checkArrivals s) = allPids s := by
  unfold checkArrivals allPids
  dsimp only
  rw [pidsOf_append, ← admitLoop_pids s.clock s.not_arrived]
  abel

/-- Admission preserves the state-tag discipline. -/
theorem checkArrivals_wf (s : SchedState) (h : wfState s) : wfState (checkArrivals s) := by
  obtain ⟨hr, hw⟩ := h
  refine ⟨?_, hw⟩
  intro q hq
  rcases List.mem_append.mp hq with h' | h'
  · exact hr q h'
  · exact admitLoop_ready s.clock s.not_arrived q h'

/-- The CPU advance phase conserves the tracked id multiset. -/
theorem phaseCpus_pids (s : SchedState) : allPids (phaseCpus s) = allPids s := by
  unfold phaseCpus allPids
  dsimp only
  have h2 : pidsOf (onSlots (processCpusLoop s.clock s.cpu_queue s.wait_queue s.finished).1) +
      pidsOf (processCpusLoop s.clock s.cpu_queue s.wait_queue s.finished).2.1 +
      pidsOf (processCpusLoop s.clock s.cpu_queue s.wait_queue s.finished).2.2 =
      pidsOf (onSlots s.cpu_queue) + pidsOf s.wait_queue + pidsOf s.finished :=
    processCpusLoop_pids s.clock s.cpu_queue s.wait_queue s.finished
  set r := processCpusLoop s.clock s.cpu_queue s.wait_queue s.finished
  calc pidsOf s.not_arrived + pidsOf s.ready_queue + pidsOf r.2.1 + pidsOf (onSlots r.1) +
        pidsOf (onSlots s.io_queue) + pidsOf r.2.2
      = pidsOf s.not_arrived + pidsOf s.ready_queue + pidsOf (onSlots s.io_queue) +
        (pidsOf (onSlots r.1) + pidsOf r.2.1 + pidsOf r.2.2) := by abel
    _ = pidsOf s.not_arrived + pidsOf s.ready_queue + pidsOf (onSlots s.io_queue) +
        (pidsOf (onSlots s.cpu_queue) + pidsOf s.wait_queue + pidsOf s.finished) := by rw [h2]
    _ = pidsOf s.not_arrived + pidsOf s.ready_queue + pidsOf s.wait_queue +
        pidsOf (onSlots s.cpu_queue) + pidsOf (onSlots s.io_queue) + pidsOf s.finished := by abel

/-- The CPU advance phase preserves the state-tag discipline. -/
theorem phaseCpus_wf (s : SchedState) (h : wfState s) : wfState (phaseCpus s) := by
  obtain ⟨hr, hw⟩ := h
  refine ⟨hr, ?_⟩
  intro q hq
  rcases processCpusLoop_wq_mem s.clock s.cpu_queue s.wait_queue s.finished q hq with h' | ⟨h', _⟩
  · exact hw q h'
  · exact h'

/-- The io advance phase conserves the tracked id multiset. -/
theorem phaseIos_pids (s : SchedState) : allPids (phaseIos s) = allPids s := by
  unfold phaseIos allPids
  dsimp only
  have h2 : pidsOf (onSlots (processIosLoop s.clock s.io_queue s.ready_queue s.finished).1) +
      pidsOf (processIosLoop s.clock s.io_queue s.ready_queue s.finished).2.1 +
      pidsOf (processIosLoop s.clock s.io_queue s.ready_queue s.finished).2.2 =
      pidsOf (onSlots s.io_queue) + pidsOf s.ready_queue + pidsOf s.finished :=
    processIosLoop_pids s.clock s.io_queue s.ready_queue s.finished
  set r := processIosLoop s.clock s.io_queue s.ready_queue s.finished
  calc pidsOf s.not_arrived + pidsOf r.2.1 + pidsOf s.wait_queue +
        pidsOf (onSlots s.cpu_queue) + pidsOf (onSlots r.1) + pidsOf r.2.2
      = pidsOf s.not_arrived + pidsOf s.wait_queue + pidsOf (onSlots s.cpu_queue) +
        (pidsOf (onSlots r.1) + pidsOf r.2.1 + pidsOf r.2.2) := by abel
    _ = pidsOf s.not_arrived + pidsOf s.wait_queue + pidsOf (onSlots s.cpu_queue) +
        (pidsOf (onSlots s.io_queue) + pidsOf s.ready_queue + pidsOf s.finished) := by rw [h2]
    _ = pidsOf s.not_arrived + pidsOf s.ready_queue + pidsOf s.wait_queue +
        pidsOf (onSlots s.cpu_queue) + pidsOf (onSlots s.io_queue) + pidsOf s.finished := by abel

/-- The io advance phase preserves the state-tag discipline. -/
theorem phaseIos_wf (s : SchedState) (h : wfState s) : wfState (phaseIos s) := by
  obtain ⟨hr, hw⟩ := h
  refine ⟨?_, hw⟩
  intro q hq
  rcases processIosLoop_rq_mem s.clock s.io_queue s.ready_queue s.finished q hq with h' | ⟨h', _⟩
  · exact hr q h'
  · exact h'

/-- The CPU dispatch phase conserves the tracked id multiset on tagged
states. -/
theorem phaseDispatchCpus_pids (s : SchedState)
    (hr : ∀ q ∈ s.ready_queue, q.state = PState.ready) :
    allPids (phaseDispatchCpus s) = allPids s := by
  unfold phaseDispatchCpus allPids
  dsimp only
  have h2 : pidsOf (onSlots (dispatchCpusLoop s.clock s.cpu_queue s.ready_queue).1) +
      pidsOf (dispatchCpusLoop s.clock s.cpu_queue s.ready_queue).2 =
      pidsOf (onSlots s.cpu_queue) + pidsOf s.ready_queue :=
    dispatchCpusLoop_pids s.clock s.cpu_queue s.ready_queue hr
  set r := dispatchCpusLoop s.clock s.cpu_queue s.ready_queue
  calc pidsOf s.not_arrived + pidsOf r.2 + pidsOf s.wait_queue +
        pidsOf (onSlots r.1) + pidsOf (onSlots s.io_queue) + pidsOf s.finished
      = pidsOf s.not_arrived + pidsOf s.wait_queue + pidsOf (onSlots s.io_queue) +
        pidsOf s.finished + (pidsOf (onSlots r.1) + pidsOf r.2) := by abel
    _ = pidsOf s.not_arrived + pidsOf s.wait_queue + pidsOf (onSlots s.io_queue) +
        pidsOf s.finished + (pidsOf (onSlots s.cpu_queue) + pidsOf s.ready_queue) := by rw [h2]
    _ = pidsOf s.not_arrived + pidsOf s.ready_queue + pidsOf s.wait_queue +
        pidsOf (onSlots s.cpu_queue) + pidsOf (onSlots s.io_queue) + pidsOf s.finished := by abel

/-- The CPU dispatch phase preserves the state-tag discipline. -/
theorem phaseDispatchCpus_wf (s : SchedState) (h : wfState s) : wfState (phaseDispatchCpus s) := by
  obtain ⟨hr, hw⟩ := h
  refine ⟨?_, hw⟩
  intro q hq
  exact hr q (dispatchCpusLoop_leftover s.clock s.cpu_queue s.ready_queue q hq)

/-- The io dispatch phase conserves the tracked id multiset on tagged
states. -/
theorem phaseDispatchIos_pids (s : SchedState)
    (hw : ∀ q ∈ s.wait_queue, q.state = PState.waiting) :
    allPids (phaseDispatchIos s) = allPids s := by
  unfold phaseDispatchIos allPids
  dsimp only
  have h2 : pidsOf (onSlots (dispatchIosLoop s.io_queue s.wait_queue).1) +
      pidsOf (dispatchIosLoop s.io_queue s.wait_queue).2 =
      pidsOf (onSlots s.io_queue) + pidsOf s.wait_queue :=
    dispatchIosLoop_pids s.io_queue s.wait_queue hw
  set r := dispatchIosLoop s.io_queue s.wait_queue
  calc pidsOf s.not_arrived + pidsOf s.ready_queue + pidsOf r.2 +
        pidsOf (onSlots s.cpu_queue) + pidsOf (onSlots r.1) + pidsOf s.finished
      = pidsOf s.not_arrived + pidsOf s.ready_queue + pidsOf (onSlots s.cpu_queue) +
        pidsOf s.finished + (pidsOf (onSlots r.1) + pidsOf r.2) := by abel
    _ = pidsOf s.not_arrived + pidsOf s.ready_queue + pidsOf (onSlots s.cpu_queue) +
        pidsOf s.finished + (pidsOf (onSlots s.io_queue) + pidsOf s.wait_queue) := by rw [h2]
    _ = pidsOf s.not_arrived + pidsOf s.ready_queue + pidsOf s.wait_queue +
        pidsOf (onSlots s.cpu_queue) + pidsOf (onSlots s.io_queue) + pidsOf s.finished := by abel

/-- The io dispatch phase preserves the state-tag discipline. -/
theorem phaseDispatchIos_wf (s : SchedState) (h : wfState s) : wfState (phaseDispatchIos s) := by
  obtain ⟨hr, hw⟩ := h
  refine ⟨hr, ?_⟩
  intro q hq
  exact hw q (dispatchIosLoop_leftover s.io_queue s.wait_queue q hq)

/-- The clock-and-aging tail conserves the tracked id multiset. -/
theorem clockAndAge_pids (s : SchedState) : allPids (clockAndAge s) = allPids s := by
  unfold clockAndAge allPids
  dsimp only
  rw [pidsOf_age]

/-- The clock-and-aging tail preserves the state-tag discipline. -/
theorem clockAndAge_wf (s : SchedState) (h : wfState s) : wfState (clockAndAge s) := by
  obtain ⟨hr, hw⟩ := h
  refine ⟨?_, hw⟩
  intro q hq
  obtain ⟨x, hx, rfl⟩ := List.mem_map.mp hq
  exact hr x hx

/-- The SRTF preemption check conserves the tracked id multiset. -/
theorem checkPreemption_pids (s : SchedState) : allPids (checkPreemption s) = allPids s := by
  unfold checkPreemption
  split
  · rfl
  · unfold allPids
    dsimp only
    have h2 : pidsOf (onSlots (preemptLoop s.cpu_queue (sortReady s.ready_queue)).1) +
        pidsOf (preemptLoop s.cpu_queue (sortReady s.ready_queue)).2 =
        pidsOf (onSlots s.cpu_queue) + pidsOf (sortReady s.ready_queue) :=
      preemptLoop_pids s.cpu_queue (sortReady s.ready_queue)
    rw [sortReady_pids] at h2
    set r := preemptLoop s.cpu_queue (sortReady s.ready_queue)
    calc pidsOf s.not_arrived + pidsOf r.2 + pidsOf s.wait_queue +
          pidsOf (onSlots r.1) + pidsOf (onSlots s.io_queue) + pidsOf s.finished
        = pidsOf s.not_arrived + pidsOf s.wait_queue + pidsOf (onSlots s.io_queue) +
          pidsOf s.finished + (pidsOf (onSlots r.1) + pidsOf r.2) := by abel
      _ = pidsOf s.not_arrived + pidsOf s.wait_queue + pidsOf (onSlots s.io_queue) +
          pidsOf s.finished + (pidsOf (onSlots s.cpu_queue) + pidsOf s.ready_queue) := by rw [h2]
      _ = pidsOf s.not_arrived + pidsOf s.ready_queue + pidsOf s.wait_queue +
          pidsOf (onSlots s.cpu_queue) + pidsOf (onSlots s.io_queue) + pidsOf s.finished := by abel

/-- The SRTF preemption check preserves the state-tag discipline. -/
theorem checkPreemption_wf (s : SchedState) (h : wfState s) : wfState (checkPreemption s) := by
  obtain ⟨hr, hw⟩ := h
  unfold checkPreemption
  split
  · exact ⟨hr, hw⟩
  · refine ⟨?_, hw⟩
    intro q hq
    rcases preemptLoop_rq_mem s.cpu_queue (sortReady s.ready_queue) q hq with h' | ⟨h', _⟩
    · exact hr q ((sortReady_mem s.ready_queue q).mp h')
    · exact h'

/-- The SRTF pre-dispatch sort conserves the tracked id multiset. -/
theorem srtfSortPhase_pids (s : SchedState) : allPids (srtfSortPhase s) = allPids s := by
  unfold srtfSortPhase allPids
  dsimp only
  rw [sortReady_pids]

/-- The SRTF pre-dispatch sort preserves the state-tag discipline. -/
theorem srtfSortPhase_wf (s : SchedState) (h : wfState s) : wfState (srtfSortPhase s) := by
  obtain ⟨hr, hw⟩ := h
  exact ⟨fun q hq => hr q ((sortReady_mem s.ready_queue q).mp hq), hw⟩

/-- C9 (confirmed for the FCFS and A02-SRTF schedulers): one `step()` call
conserves the multiset of tracked process ids over the six collections
{not_arrived, ready, CPU slots, wait queue, io slots, finished} — so a
process present exactly once before the step is present exactly once after
it, and the total count of tracked processes never changes — and preserves
the state-tag discipline the conservation rests on. -/
theorem c9_conservation (s : SchedState) (h : wfState s) :
    (allPids (fcfsStep s) = allPids s ∧ wfState (fcfsStep s)) ∧
    (allPids (srtfStep s) = allPids s ∧ wfState (srtfStep s)) := by
  constructor
  · have h1 := checkArrivals_wf s h
    have h2 := phaseCpus_wf _ h1
    have h3 := phaseIos_wf _ h2
    have h4 := phaseDispatchCpus_wf _ h3
    have h5 := phaseDispatchIos_wf _ h4
    constructor
    · unfold fcfsStep
      rw [clockAndAge_pids, phaseDispatchIos_pids _ h4.2, phaseDispatchCpus_pids _ h3.1,
          phaseIos_pids, phaseCpus_pids, checkArrivals_pids]
    · exact clockAndAge_wf _ h5
  · have h1 := checkArrivals_wf s h
    have h1b := checkPreemption_wf _ h1
    have h2 := phaseCpus_wf _ h1b
    have h3 := phaseIos_wf _ h2
    have h3b := srtfSortPhase_wf _ h3
    have h4 := phaseDispatchCpus_wf _ h3b
    have h5 := phaseDispatchIos_wf _ h4
    constructor
    · unfold srtfStep
      rw [clockAndAge_pids, phaseDispatchIos_pids _ h4.2, phaseDispatchCpus_pids _ h3b.1,
          srtfSortPhase_pids, phaseIos_pids, phaseCpus_pids, checkPreemption_pids,
          checkArrivals_pids]
    · exact clockAndAge_wf _ h5

/-- Witness for `c9_conservation` at a concrete well-formed state. -/
theorem c9_conservation_witness :
    wfState c9WitState ∧
    ((allPids (fcfsStep c9WitState) = allPids c9WitState ∧ wfState (fcfsStep c9WitState)) ∧
     (allPids (srtfStep c9WitState) = allPids c9WitState ∧ wfState (srtfStep c9WitState))) :=
  ⟨by constructor <;> decide, c9_conservation c9WitState (by constructor <;> decide)⟩

/-- Admission preserves the arrival-gating invariant. -/
theorem checkArrivals_bound (s : SchedState) (h : arrivedInv s) : arrivedInv (checkArrivals s) := by
  obtain ⟨hr, hw, hc, hd⟩ := h
  refine ⟨?_, hw, hc, hd⟩
  intro q hq
  rcases List.mem_append.mp hq with h' | h'
  · exact hr q h'
  · exact admitLoop_arrival s.clock s.not_arrived q h'

/-- The CPU advance phase preserves the arrival-gating invariant. -/
theorem phaseCpus_bound (s : SchedState) (h : arrivedInv s) : arrivedInv (phaseCpus s) := by
  obtain ⟨hr, hw, hc, hd⟩ := h
  refine ⟨hr, ?_, ?_, hd⟩
  · intro q hq
    rcases processCpusLoop_wq_mem s.clock s.cpu_queue s.wait_queue s.finished q hq
      with h' | ⟨_, p, hp, ha⟩
    · exact hw q h'
    · rw [ha]; exact hc p hp
  · intro q hq
    obtain ⟨p, hp, ha⟩ := processCpusLoop_slots_mem s.clock s.cpu_queue s.wait_queue s.finished q hq
    rw [ha]; exact hc p hp

/-- The io advance phase preserves the arrival-gating invariant. -/
theorem phaseIos_bound (s : SchedState) (h : arrivedInv s) : arrivedInv (phaseIos s) := by
  obtain ⟨hr, hw, hc, hd⟩ := h
  refine ⟨?_, hw, hc, ?_⟩
  · intro q hq
    rcases processIosLoop_rq_mem s.clock s.io_queue s.ready_queue s.finished q hq
      with h' | ⟨_, p, hp, ha⟩
    · exact hr q h'
    · rw [ha]; exact hd p hp
  · intro q hq
    obtain ⟨p, hp, ha⟩ := processIosLoop_slots_mem s.clock s.io_queue s.ready_queue s.finished q hq
    rw [ha]; exact hd p hp

/-- The CPU dispatch phase preserves the arrival-gating invariant. -/
theorem phaseDispatchCpus_bound (s : SchedState) (h : arrivedInv s) :
    arrivedInv (phaseDispatchCpus s) := by
  obtain ⟨hr, hw, hc, hd⟩ := h
  refine ⟨?_, hw, ?_, hd⟩
  · intro q hq
    exact hr q (dispatchCpusLoop_leftover s.clock s.cpu_queue s.ready_queue q hq)
  · intro q hq
    rcases dispatchCpusLoop_slots_mem s.clock s.cpu_queue s.ready_queue q hq
      with h' | ⟨p, hp, ha⟩
    · exact hc q h'
    · rw [ha]; exact hr p hp

/-- The io dispatch phase preserves the arrival-gating invariant. -/
theorem phaseDispatchIos_bound (s : SchedState) (h : arrivedInv s) :
    arrivedInv (phaseDispatchIos s) := by
  obtain ⟨hr, hw, hc, hd⟩ := h
  refine ⟨hr, ?_, hc, ?_⟩
  · intro q hq
    exact hw q (dispatchIosLoop_leftover s.io_queue s.wait_queue q hq)
  · intro q hq
    rcases dispatchIosLoop_slots_mem s.io_queue s.wait_queue q hq with h' | ⟨p, hp, ha⟩
    · exact hd q h'
    · rw [ha]; exact hw p hp

/-- The clock-and-aging tail preserves the arrival-gating invariant (the
clock only grows). -/
theorem clockAndAge_bound (s : SchedState) (h : arrivedInv s) : arrivedInv (clockAndAge s) := by
  obtain ⟨hr, hw, hc, hd⟩ := h
  refine ⟨?_, fun q hq => Nat.le_succ_of_le (hw q hq), fun q hq => Nat.le_succ_of_le (hc q hq),
    fun q hq => Nat.le_succ_of_le (hd q hq)⟩
  intro q hq
  obtain ⟨x, hx, rfl⟩ := List.mem_map.mp hq
  exact Nat.le_succ_of_le (hr x hx)

/-- C2 amended: for the A02 schedulers (FCFS shown, whose `add_process`
enqueues into `not_arrived` and whose `_check_arrivals` admits only
processes with `arrival_time <= clock`), the claimed invariant holds and is
preserved by `step()`: no process ever sits in Ready — nor in the wait
queue or any slot — while the clock is strictly below its arrival time.
The claim's parenthetical fails for the other entry points: the base
`pkg.Scheduler.add_process` and the part01 `SRTFScheduler.add_process`
place not-yet-arrived processes directly into Ready (see the C2
counterexample). -/
theorem c2_arrival_gate_amended (s : SchedState) (h : arrivedInv s) : arrivedInv (fcfsStep s) := by
  unfold fcfsStep
  exact clockAndAge_bound _ (phaseDispatchIos_bound _ (phaseDispatchCpus_bound _
    (phaseIos_bound _ (phaseCpus_bound _ (checkArrivals_bound _ h)))))

/-- Witness for `c2_arrival_gate_amended` at a concrete state. -/
theorem c2_arrival_gate_amended_witness :
    arrivedInv c2WitState ∧ arrivedInv (fcfsStep c2WitState) := by
  have h0 : arrivedInv c2WitState := by
    refine ⟨?_, ?_, ?_, ?_⟩ <;> decide
  exact ⟨h0, c2_arrival_gate_amended c2WitState h0⟩

/-- Occupants after first-free-slot assignment in an RR/Adaptive slot
list: the assigned pair or an old occupant. -/
theorem rrAssignFree_mem (x : Process × Int) (cpus : List (Option (Process × Int))) :
    ∀ pq, some pq ∈ rrAssignFree x cpus → pq = x ∨ some pq ∈ cpus := by
  induction cpus with
  | nil => simp [rrAssignFree]
  | cons o rest ih =>
    cases o with
    | none =>
      intro pq hpq
      rcases List.mem_cons.mp hpq with h | h
      · exact Or.inl (Option.some_inj.mp h)
      · exact Or.inr (List.mem_cons_of_mem none h)
    | some y =>
      intro pq hpq
      rcases List.mem_cons.mp hpq with h | h
      · exact Or.inr (h ▸ List.mem_cons_self _ rest)
      · rcases ih pq h with h' | h'
        · exact Or.inl h'
        · exact Or.inr (List.mem_cons_of_mem (some y) h')

/-- When no CPU slot is free, the adaptive dispatch loop returns its
inputs unchanged. -/
theorem adaptDispatchCpusLoop_of_full (c : Nat) (q : Int)
    (cpus : List (Option (Process × Int))) (l : List Process)
    (h : cpus.any (fun o => o.isNone) = false) :
    adaptDispatchCpusLoop c q cpus l = (cpus, l) := by
  cases l with
  | nil => rfl
  | cons p rest => simp [adaptDispatchCpusLoop, h]

/-- Every slot occupied after the adaptive dispatch loop either carries
the quantum the loop was given as its counter (it was dispatched by this
loop) or was occupied, with the same counter, before the loop ran. -/
theorem adaptDispatchCpusLoop_mem (c : Nat) (q : Int)
    (cpus : List (Option (Process × Int))) (rq : List Process) :
    ∀ pq, some pq ∈ (adaptDispatchCpusLoop c q cpus rq).1 →
      pq.2 = q ∨ some pq ∈ cpus := by
  induction rq generalizing cpus with
  | nil => exact fun pq hpq => Or.inr (by simpa [adaptDispatchCpusLoop] using hpq)
  | cons p rest ih =>
    by_cases hfree : cpus.any (fun o => o.isNone) = true
    · by_cases hp : p.state = PState.ready
      · rw [adaptDispatchCpusLoop, if_pos hfree, if_pos hp]
        intro pq hpq
        rcases ih _ pq hpq with h | h
        · exact Or.inl h
        · rcases rrAssignFree_mem _ _ pq h with rfl | h'
          · exact Or.inl rfl
          · exact Or.inr h'
      · rw [adaptDispatchCpusLoop, if_pos hfree, if_neg hp]
        exact ih cpus
    · rw [adaptDispatchCpusLoop_of_full c q cpus (p :: rest)
        (by revert hfree; cases cpus.any (fun o => o.isNone) <;> simp)]
      exact fun pq hpq => Or.inr hpq

/-- C8 amended: `AdaptiveScheduler.step` recomputes the quantum on EVERY
tick — part (1): after any step, `current_quantum` equals the claimed
formula (trailing window of the last 10 samples, average > 5 ⇒
`max(2, base-2)`, average < 2 ⇒ `base+2`, else `base`, stated
division-free) applied to that tick's post-admission state, except that
each sample is the Ready-queue length PLUS the number of occupied CPU
slots, not the Ready-queue length alone; part (2): the trailing window is
extended by that sample and trimmed to 10 every tick; part (3): the
recomputed quantum is the one installed at the next dispatch — every CPU
slot occupied after the step either carries this tick's recomputed
quantum as its counter (installed by `_dispatch_to_cpus`) or was already
occupied, counter included, when the dispatch phase began. -/
theorem c8_adaptive_amended (s : AdaptiveState) :
    ((adaptStep s).current_quantum =
      adaptQuantumInt s.base_quantum (adaptArrivals s).ready_queue
        ((adaptArrivals s).cpu_queue.map (Option.map Prod.fst)) s.load_history) ∧
    ((adaptStep s).load_history =
      (let load := (adaptArrivals s).ready_queue.length +
         ((((adaptArrivals s).cpu_queue.map (Option.map Prod.fst)).filter
            (fun o => o.isSome)).length)
       let hist0 := s.load_history ++ [load]
       if 10 < hist0.length then hist0.tail else hist0)) ∧
    (∀ pq : Process × Int, some pq ∈ (adaptStep s).cpu_queue →
      pq.2 = (adaptStep s).current_quantum ∨
      some pq ∈ (adaptPhaseCpus (adaptPhaseQuantum (adaptArrivals s))).cpu_queue) := by
  refine ⟨?_, ?_, ?_⟩
  · exact adaptQuantum_eq_int s.base_quantum (adaptArrivals s).ready_queue
      ((adaptArrivals s).cpu_queue.map (Option.map Prod.fst)) s.load_history
  · show (adaptQuantum s.base_quantum (adaptArrivals s).ready_queue
        ((adaptArrivals s).cpu_queue.map (Option.map Prod.fst)) s.load_history).2 = _
    simp only [adaptQuantum]
    split_ifs <;> rfl
  · intro pq hpq
    exact adaptDispatchCpusLoop_mem _ _ _ _ pq hpq

/-- Witness for `c8_adaptive_amended`: on a concrete state (base quantum
4, empty history, one ready process, one free CPU) the dispatched slot
carries the quantum recomputed that tick (load 1, average 1 < 2, so 6). -/
theorem c8_adaptive_amended_witness :
    (((adaptStep adaptWitState).current_quantum =
        adaptQuantumInt adaptWitState.base_quantum (adaptArrivals adaptWitState).ready_queue
          ((adaptArrivals adaptWitState).cpu_queue.map (Option.map Prod.fst))
          adaptWitState.load_history) ∧
      ((adaptStep adaptWitState).load_history =
        (let load := (adaptArrivals adaptWitState).ready_queue.length +
           ((((adaptArrivals adaptWitState).cpu_queue.map (Option.map Prod.fst)).filter
              (fun o => o.isSome)).length)
         let hist0 := adaptWitState.load_history ++ [load]
         if 10 < hist0.length then hist0.tail else hist0)) ∧
      (adaptWitSlot.2 = (adaptStep adaptWitState).current_quantum ∨
        some adaptWitSlot ∈
          (adaptPhaseCpus (adaptPhaseQuantum (adaptArrivals adaptWitState))).cpu_queue)) := by
  have h := c8_adaptive_amended adaptWitState
  have hmem : (adaptStep adaptWitState).cpu_queue = [some adaptWitSlot] := by
    simp [adaptStep, adaptArrivals, admitLoop, adaptPhaseQuantum, adaptPhaseCpus,
          adaptProcessCpusLoop, adaptPhaseIos, processIosLoop, adaptPhaseDispatchCpus,
          adaptSortReady, adaptDispatchCpusLoop, rrAssignFree, adaptPhaseDispatchIos,
          dispatchIosLoop, adaptWitState, adaptWitProc, adaptWitSlot, classifyProcess,
          adaptKey, keyLE]
    norm_num [adaptQuantum]
  exact ⟨h.1, h.2.1, h.2.2 adaptWitSlot (by rw [hmem]; exact List.mem_singleton.mpr rfl)⟩
